import Mathlib

/-!
Shallow embedding of the core of
`scripts/bidirectional_sync.py` and `scripts/yaml_transformer.py`
(Mycelium Notes Publishing Workflow).

Modelling conventions:
* a Python `str` is a list of characters (`Str`);
* a Python `dict` is an association list with insert-or-overwrite
  (`dictInsert`) and key lookup (`alookup`); iteration order is the list
  order, matching Python's insertion-ordered dicts;
* `datetime.now().strftime("%Y-%m-%d")` is modelled by an explicit `today`
  parameter threaded to the functions that call it;
* the MD5 digest of `get_section_hash` is modelled as the identity, so
  digest equality is content equality (a collision-free model of hashing);
* floats (`difflib`'s 0..1 similarity score, compared against the literal
  `0.9`) are modelled as exact rationals.
-/

abbrev Str := List Char

/-- Character list of a Lean string literal (used to write Python strings). -/
def chars (s : String) : Str := s.data

/-- Python whitespace: the ASCII characters stripped by `str.strip()` and
matched by the regex class `\s`. -/
def pySpace (c : Char) : Bool :=
  c == ' ' || c == '\t' || c == '\n' || c == '\r' || c == '\x0b' || c == '\x0c'

/-- Left part of Python `str.strip()`: drop leading whitespace. -/
def pyStripL (l : Str) : Str := l.dropWhile pySpace

/-- Right part of Python `str.strip()`: drop trailing whitespace. -/
def pyStripR (l : Str) : Str := (l.reverse.dropWhile pySpace).reverse

/-- Python `str.strip()` (no arguments): strip whitespace from both ends. -/
def pyStrip (l : Str) : Str := pyStripR (pyStripL l)

/-- Python `str.split(sep)` for a single separator character
(in particular `content.split('\n')`): splitting never returns an empty
list, and splitting the empty string gives one empty piece. -/
def splitCh (sep : Char) : List Char → List (List Char)
  | [] => [[]]
  | c :: rest =>
    let r := splitCh sep rest
    if c = sep then [] :: r else (c :: r.headD []) :: r.tail

/-- Python `sep.join(pieces)`. -/
def joinWith (sep : Str) : List Str → Str
  | [] => []
  | [x] => x
  | x :: y :: xs => x ++ sep ++ joinWith sep (y :: xs)

/-- Python `'\n'.join(...)`. -/
def joinNl (ls : List Str) : Str := joinWith (chars "\n") ls

/-- Association-list lookup, the model of Python `dict[k]` / `dict.get(k)`. -/
def alookup (k : Str) : List (Str × α) → Option α
  | [] => none
  | e :: rest => if e.1 = k then some e.2 else alookup k rest

/-- Python `dict[k] = v`: overwrite in place when the key exists (keeping its
position, as Python dicts do), append otherwise. -/
def dictInsert (d : List (Str × α)) (k : Str) (v : α) : List (Str × α) :=
  if (alookup k d).isSome then
    d.map fun e => if e.1 = k then (k, v) else e
  else d ++ [(k, v)]

/-- Key list of an association list. -/
def keysOf (d : List (Str × α)) : List Str := d.map Prod.fst

/-! ### Basic association-list lemmas -/

theorem alookup_append (k : Str) (d₁ d₂ : List (Str × α)) :
    alookup k (d₁ ++ d₂) =
      match alookup k d₁ with
      | some v => some v
      | none => alookup k d₂ := by
  induction d₁ with
  | nil => simp [alookup]
  | cons e rest ih =>
    by_cases h : e.1 = k <;> simp [alookup, h, ih]

theorem alookup_map_overwrite (k : Str) (v : α) (d : List (Str × α)) :
    alookup k (d.map fun e => if e.1 = k then (k, v) else e) =
      if (alookup k d).isSome then some v else none := by
  induction d with
  | nil => simp [alookup]
  | cons e rest ih =>
    by_cases he : e.1 = k
    · simp [alookup, he]
    · simp [alookup, he, ih]

theorem alookup_map_overwrite_ne (k k' : Str) (v : α) (d : List (Str × α))
    (h : k' ≠ k) :
    alookup k' (d.map fun e => if e.1 = k then (k, v) else e) = alookup k' d := by
  induction d with
  | nil => simp [alookup]
  | cons e rest ih =>
    by_cases he : e.1 = k
    · have hne : e.1 ≠ k' := fun habs => h (habs.symm.trans he)
      simp [alookup, he, Ne.symm h, hne, ih]
    · by_cases he' : e.1 = k'
      · simp [alookup, he, he', h, ih]
      · simp [alookup, he, he', ih]

theorem alookup_dictInsert_self (k : Str) (v : α) (d : List (Str × α)) :
    alookup k (dictInsert d k v) = some v := by
  unfold dictInsert
  by_cases h : (alookup k d).isSome
  · simp [h, alookup_map_overwrite]
  · rw [if_neg (by simpa using h), alookup_append]
    rw [Option.not_isSome_iff_eq_none] at h
    simp [h, alookup]

theorem alookup_dictInsert_ne (k k' : Str) (v : α) (d : List (Str × α))
    (h : k' ≠ k) : alookup k' (dictInsert d k v) = alookup k' d := by
  unfold dictInsert
  by_cases hs : (alookup k d).isSome
  · simp [hs, alookup_map_overwrite_ne k k' v d h]
  · rw [if_neg (by simpa using hs), alookup_append]
    cases hk : alookup k' d <;> simp [alookup, h, Ne.symm h]

theorem keysOf_dictInsert (k : Str) (v : α) (d : List (Str × α)) :
    keysOf (dictInsert d k v) =
      if (alookup k d).isSome then keysOf d else keysOf d ++ [k] := by
  unfold dictInsert
  by_cases hs : (alookup k d).isSome
  · rw [if_pos hs, if_pos hs]
    simp only [keysOf, List.map_map]
    congr 1
    funext e
    by_cases he : e.1 = k <;> simp [he, Function.comp]
  · rw [if_neg (by simpa using hs), if_neg hs]
    simp [keysOf]

theorem alookup_isSome_iff_mem_keys (k : Str) (d : List (Str × α)) :
    (alookup k d).isSome ↔ k ∈ keysOf d := by
  induction d with
  | nil => simp [alookup, keysOf]
  | cons e rest ih =>
    unfold keysOf at ih ⊢
    rw [List.map_cons, List.mem_cons]
    by_cases he : e.1 = k
    · simp only [alookup, if_pos he]
      exact ⟨fun _ => Or.inl he.symm, fun _ => rfl⟩
    · simp only [alookup, if_neg he]
      rw [ih]
      exact ⟨fun h => Or.inr h, fun h => h.resolve_left fun hk => he hk.symm⟩

theorem nodup_keys_dictInsert (k : Str) (v : α) (d : List (Str × α))
    (h : (keysOf d).Nodup) : (keysOf (dictInsert d k v)).Nodup := by
  rw [keysOf_dictInsert]
  by_cases hs : (alookup k d).isSome
  · rw [if_pos hs]; exact h
  · rw [if_neg hs]
    refine List.Nodup.append h (List.nodup_singleton k) ?_
    intro a ha hb
    simp only [List.mem_singleton] at hb
    subst hb
    exact hs ((alookup_isSome_iff_mem_keys a d).mpr ha)

/-! ### `splitCh` / `joinWith` structure lemmas -/

theorem splitCh_ne_nil (sep : Char) (l : List Char) : splitCh sep l ≠ [] := by
  cases l with
  | nil => simp [splitCh]
  | cons c rest =>
    by_cases h : c = sep <;> simp [splitCh, h]

theorem splitCh_cons_sep (sep : Char) (rest : List Char) :
    splitCh sep (sep :: rest) = [] :: splitCh sep rest := by
  simp [splitCh]

theorem splitCh_cons_ne (sep c : Char) (rest : List Char) (h : c ≠ sep) :
    splitCh sep (c :: rest) =
      (c :: (splitCh sep rest).headD []) :: (splitCh sep rest).tail := by
  simp [splitCh, h]

/-- No piece produced by `splitCh` contains the separator. -/
theorem splitCh_sep_not_mem (sep : Char) (l : List Char) :
    ∀ p ∈ splitCh sep l, sep ∉ p := by
  induction l with
  | nil =>
    intro p hp
    simp only [splitCh, List.mem_singleton] at hp
    simp [hp]
  | cons c rest ih =>
    intro p hp
    by_cases h : c = sep
    · rw [h, splitCh_cons_sep] at hp
      rcases List.mem_cons.mp hp with hp | hp
      · simp [hp]
      · exact ih p hp
    · rw [splitCh_cons_ne sep c rest h] at hp
      rcases hr : splitCh sep rest with _ | ⟨q, qs⟩
      · exact absurd hr (splitCh_ne_nil sep rest)
      · rw [hr] at hp
        rcases List.mem_cons.mp hp with hp | hp
        · rw [hp]
          intro hmem
          rcases List.mem_cons.mp hmem with h' | h'
          · exact h h'.symm
          · exact ih q (by rw [hr]; exact List.mem_cons_self q qs) (by simpa using h')
        · exact ih p (by rw [hr]; exact List.mem_cons_of_mem q (by simpa using hp))

/-- Splitting a concatenation: the pieces of `x` except the last, then the
last piece of `x` glued to the first piece of `y`, then the rest of `y`'s
pieces. -/
theorem splitCh_append (sep : Char) (x y : List Char) :
    splitCh sep (x ++ y) =
      (splitCh sep x).dropLast ++
        ((splitCh sep x).getLastD [] ++ (splitCh sep y).headD []) ::
          (splitCh sep y).tail := by
  induction x with
  | nil =>
    rcases hy : splitCh sep y with _ | ⟨q, qs⟩
    · exact absurd hy (splitCh_ne_nil sep y)
    · simp [splitCh, hy]
  | cons c rest ih =>
    rcases hr : splitCh sep rest with _ | ⟨q, qs⟩
    · exact absurd hr (splitCh_ne_nil sep rest)
    · by_cases h : c = sep
      · rw [List.cons_append, h, splitCh_cons_sep, splitCh_cons_sep, ih, hr]
        simp
      · rw [List.cons_append, splitCh_cons_ne sep c _ h, splitCh_cons_ne sep c rest h, ih, hr]
        rcases qs with _ | ⟨q', qs'⟩
        · simp
        · simp

/-- A separator-free list splits into itself as the single piece. -/
theorem splitCh_no_sep (sep : Char) (l : List Char) (h : sep ∉ l) :
    splitCh sep l = [l] := by
  induction l with
  | nil => simp [splitCh]
  | cons c rest ih =>
    have hc : c ≠ sep := fun hc => h (hc ▸ List.mem_cons_self c rest)
    have hrest : sep ∉ rest := fun hm => h (List.mem_cons_of_mem c hm)
    rw [splitCh_cons_ne sep c rest hc, ih hrest]
    simp

/-! ### Section extraction (`extract_sections`, bidirectional_sync.py 116-136) -/

/-- The regex `^##\s+` of `extract_sections`: a level-2 heading line is two
hash marks followed by at least one whitespace character. -/
def isHeadingL (l : Str) : Bool :=
  match l with
  | '#' :: '#' :: c :: _ => pySpace c
  | _ => false

/-- Heading text to section slug:
`re.sub(r'^##\s+', '', line).lower().replace(' ', '_')` (for a line that
matches the heading regex, the substitution drops the two hashes and the
whole leading whitespace run). -/
def slugOf (l : Str) : Str :=
  (((l.drop 2).dropWhile pySpace).map Char.toLower).map fun c =>
    if c = ' ' then '_' else c

/-- The loop body of `extract_sections`: `secs` is the dict built so far,
`cur` the currently open section name, `acc` the accumulated lines of the
open section.  A heading line closes the open section (emitting
`'\n'.join(acc).strip()` when `acc` is non-empty) and opens a new one; any
other line accumulates.  The trailing accumulation is emitted at the end. -/
def extractAux : List (Str × Str) → Str → List Str → List Str → List (Str × Str)
  | secs, cur, acc, [] =>
      if acc ≠ [] then dictInsert secs cur (pyStrip (joinNl acc)) else secs
  | secs, cur, acc, l :: ls =>
      if isHeadingL l then
        (if acc ≠ [] then
          extractAux (dictInsert secs cur (pyStrip (joinNl acc))) (slugOf l) [] ls
        else extractAux secs (slugOf l) [] ls)
      else extractAux secs cur (acc ++ [l]) ls

/-- `extract_sections(content)`: split into lines, scan with the reserved
leading section name `"content"`. -/
def extract_sections (content : Str) : List (Str × Str) :=
  extractAux [] (chars "content") [] (splitCh '\n' content)

/-! ### Content reconstruction (`reconstruct_content`, lines 489-503) -/

/-- Python `str.capitalize()`: first character upper-cased, the rest
lower-cased. -/
def pyCapitalize : Str → Str
  | [] => []
  | c :: cs => c.toUpper :: cs.map Char.toLower

/-- `" ".join(word.capitalize() for word in section_name.split('_'))`. -/
def headingNameOf (slug : Str) : Str :=
  joinWith (chars " ") ((splitCh '_' slug).map pyCapitalize)

/-- `reconstruct_content(sections)`: the `"content"` section first (when
present), then every other section whose stripped text is non-empty,
prefixed by its reconstructed `## ` heading, all joined by blank lines. -/
def reconstruct_content (secs : List (Str × Str)) : Str :=
  let blocks :=
    (match alookup (chars "content") secs with
      | some v => [v]
      | none => []) ++
    secs.filterMap fun e =>
      if e.1 ≠ chars "content" ∧ pyStrip e.2 ≠ [] then
        some (chars "## " ++ headingNameOf e.1 ++ chars "\n\n" ++ e.2)
      else none
  joinWith (chars "\n\n") blocks

/-! ### Similarity oracle (`get_section_hash` and `difflib.SequenceMatcher`) -/

/-- `get_section_hash`: the MD5 digest of the section text, modelled as the
identity function, so that digest equality is content equality (the model
ignores hash collisions). -/
def get_section_hash (s : Str) : Str := s

/-- Ascending list of the positions of `c` in `b`
(`b2j[c]` of `difflib.SequenceMatcher.__chain_b` before junk removal). -/
def b2jIdx (b : Str) (c : Char) : List Nat :=
  (List.range b.length).filter fun j => b.getD j ' ' = c

/-- `b2j` with difflib's autojunk heuristic: when `b` has at least 200
elements, characters occurring more than `len(b) // 100 + 1` times are
dropped from the index (they become "popular" and are skipped by the main
loop of `find_longest_match`). -/
def b2j (b : Str) (c : Char) : List Nat :=
  if b.length ≥ 200 ∧ b.count c > b.length / 100 + 1 then [] else b2jIdx b c

/-- One outer iteration (index `i` into `a`) of the dynamic programming loop
of `find_longest_match`: `j2len` maps `j` to the length of the longest
matching run ending at `(i-1, j)`; the best block is updated on strictly
greater length, so the earliest maximal block wins, as in difflib. -/
def flmInner (a b : Str) (blo bhi : Nat) (i : Nat)
    (st : (Nat → Nat) × Nat × Nat × Nat) : (Nat → Nat) × Nat × Nat × Nat :=
  let js := (b2j b (a.getD i ' ')).filter fun j => blo ≤ j ∧ j < bhi
  js.foldl
    (fun acc j =>
      let k := (if j = 0 then 0 else st.1 (j - 1)) + 1
      let nj := fun x => if x = j then k else acc.1 x
      if k > acc.2.2.2 then (nj, i + 1 - k, j + 1 - k, k)
      else (nj, acc.2.1, acc.2.2.1, acc.2.2.2))
    ((fun _ => 0), st.2.1, st.2.2.1, st.2.2.2)

/-- The dynamic-programming part of `find_longest_match` (before the
extension loops). -/
def flmCore (a b : Str) (alo ahi blo bhi : Nat) : Nat × Nat × Nat :=
  let st := (List.range' alo (ahi - alo)).foldl
    (fun st i => flmInner a b blo bhi i st) ((fun _ => 0), alo, blo, 0)
  (st.2.1, st.2.2.1, st.2.2.2)

/-- Character comparison `a[i] == b[j]` used by the extension loops. -/
def chEq (a b : Str) (i j : Nat) : Bool :=
  match a.get? i, b.get? j with
  | some x, some y => x = y
  | _, _ => false

/-- The first while loop of `find_longest_match`: extend the best block to
the left over equal characters (with `isjunk=None` the junk set is empty,
so the junk guards of difflib are vacuous and its third and fourth while
loops never run). -/
def extendLeft (a b : Str) (alo blo : Nat) :
    Nat → Nat × Nat × Nat → Nat × Nat × Nat
  | 0, st => st
  | fuel + 1, (bi, bj, bs) =>
      if bi > alo ∧ bj > blo ∧ chEq a b (bi - 1) (bj - 1) then
        extendLeft a b alo blo fuel (bi - 1, bj - 1, bs + 1)
      else (bi, bj, bs)

/-- The second while loop of `find_longest_match`: extend the best block to
the right over equal characters. -/
def extendRight (a b : Str) (ahi bhi : Nat) (bi bj : Nat) :
    Nat → Nat → Nat
  | 0, bs => bs
  | fuel + 1, bs =>
      if bi + bs < ahi ∧ bj + bs < bhi ∧ chEq a b (bi + bs) (bj + bs) then
        extendRight a b ahi bhi bi bj fuel (bs + 1)
      else bs

/-- `SequenceMatcher.find_longest_match(alo, ahi, blo, bhi)`. -/
def find_longest_match (a b : Str) (alo ahi blo bhi : Nat) : Nat × Nat × Nat :=
  let c := flmCore a b alo ahi blo bhi
  let l := extendLeft a b alo blo c.1 c
  (l.1, l.2.1, extendRight a b ahi bhi l.1 l.2.1 ahi l.2.2)

/-- Total size of the matching blocks found by the recursive divide-and-
conquer of `get_matching_blocks` (only the sum of block sizes is needed by
the score; the sentinel block and the adjacent-block merging of difflib do
not change the sum).  The recursion depth is bounded by the interval
length, so the fuel `len(a)+len(b)+1` used below never runs out. -/
def matchingSum (a b : Str) : Nat → Nat → Nat → Nat → Nat → Nat
  | 0, _, _, _, _ => 0
  | fuel + 1, alo, ahi, blo, bhi =>
      let m := find_longest_match a b alo ahi blo bhi
      if m.2.2 = 0 then 0
      else
        (if alo < m.1 ∧ blo < m.2.1 then matchingSum a b fuel alo m.1 blo m.2.1
          else 0) +
        m.2.2 +
        (if m.1 + m.2.2 < ahi ∧ m.2.1 + m.2.2 < bhi then
          matchingSum a b fuel (m.1 + m.2.2) ahi (m.2.1 + m.2.2) bhi
        else 0)

/-- `difflib.SequenceMatcher(None, a, b).ratio()`:
`2.0 * matches / (len(a) + len(b))`, and `1.0` when both strings are empty;
the float is modelled as an exact rational. -/
def similarity (a b : Str) : ℚ :=
  let total := a.length + b.length
  if total = 0 then 1
  else (2 * (matchingSum a b (total + 1) 0 a.length 0 b.length) : ℚ) / total

/-! ### Schema and sync-direction resolver (lines 29-50, 142-193) -/

/-- A per-section schema entry: `entry.get("sync", True)` and the three
exclusivity flags read with default `False`; `formats` holds the
`\<platform>_format` keys used by `convert_section_format`. -/
structure SectionPolicy where
  sync : Bool := true
  obsidian_only : Bool := false
  logseq_only : Bool := false
  quarto_only : Bool := false
  formats : List (Str × Str) := []
deriving DecidableEq

/-- A note type's schema: its `sections` mapping. -/
structure TypeSchema where
  sections : List (Str × SectionPolicy) := []
deriving DecidableEq

/-- The unified note schema: `note_types`. -/
structure Schema where
  note_types : List (Str × TypeSchema)
deriving DecidableEq

/-- The built-in fallback of `load_schema()` (the schema JSON file is not
part of the sources; when it is absent the code uses this default). -/
def defaultSchema : Schema :=
  { note_types :=
      [(chars "note",
        { sections :=
            [(chars "overview", {}), (chars "notes", {}),
             (chars "references", {})] })] }

/-- `SCHEMA["note_types"].get(note_type, SCHEMA["note_types"]["note"])`
(Python raises `KeyError` when the `"note"` entry is itself missing; the
model totalizes that case with an empty schema). -/
def typeSchemaFor (schema : Schema) (noteType : Str) : TypeSchema :=
  match alookup noteType schema.note_types with
  | some t => t
  | none => (alookup (chars "note") schema.note_types).getD { sections := [] }

/-- `sections_schema.get(section_name, {"sync": True})`. -/
def sectionPolicy (schema : Schema) (noteType : Str) (name : Str) :
    SectionPolicy :=
  (alookup name (typeSchemaFor schema noteType).sections).getD {}

/-- Deduplicated key list, the model of
`set(list(source_sections.keys()) + list(target_sections.keys()))`
(the iteration order of a Python set is unspecified; the mapping built over
it is order-independent). -/
def dedupKeys : List Str → List Str
  | [] => []
  | x :: xs => let r := dedupKeys xs; if x ∈ r then r else x :: r

/-- The union of the section names present on either side. -/
def unionKeys (src tgt : List (Str × α)) : List Str :=
  dedupKeys (keysOf src ++ keysOf tgt)

/-- The per-section branch of `determine_sync_direction`. -/
def directionFor (schema : Schema) (src tgt : List (Str × Str))
    (noteType name : Str) : Str :=
  let pol := sectionPolicy schema noteType name
  if !pol.sync then
    if pol.obsidian_only then chars "target_only"
    else if pol.logseq_only then chars "source_only"
    else if pol.quarto_only then chars "ignore"
    else chars "ignore"
  else
    match alookup name src, alookup name tgt with
    | some sv, some tv =>
        if get_section_hash sv = get_section_hash tv then chars "none"
        else if similarity sv tv > (9 : ℚ) / 10 then chars "none"
        else chars "source_to_target"
    | some _, none => chars "source_to_target"
    | none, _ => chars "target_to_source"

/-- `determine_sync_direction(source_sections, target_sections, note_type)`
(the process-global `SCHEMA` is passed explicitly). -/
def determine_sync_direction (schema : Schema) (src tgt : List (Str × Str))
    (noteType : Str) : List (Str × Str) :=
  (unionKeys src tgt).map fun name =>
    (name, directionFor schema src tgt noteType name)

/-- The back-sync trigger of `sync_file` (line 628):
`sync_directions.get("bidirectional", False)` under Python truthiness
(a missing key gives `False`; a string is truthy iff non-empty). -/
def backSyncTrigger (dirs : List (Str × Str)) : Bool :=
  match alookup (chars "bidirectional") dirs with
  | none => false
  | some v => v ≠ []

/-! ### Format converters (lines 195-312) -/

/-- `re.sub(r'^[\s]*-\s*', '', line)`: strip leading whitespace, one hyphen
and the whitespace after it; a line without such a prefix is unchanged. -/
def stripBullet (line : Str) : Str :=
  let rest := line.dropWhile pySpace
  match rest with
  | '-' :: tl => tl.dropWhile pySpace
  | _ => line

/-- State of the `convert_bullet_to_paragraph` loop: finished paragraphs,
the paragraph under construction, and the in-code-block flag. -/
structure CbpSt where
  paras : List Str
  cur : Str
  inb : Bool
deriving DecidableEq

/-- One line of `convert_bullet_to_paragraph`: blank lines flush the open
paragraph; code-fence delimiters toggle verbatim mode and pass through
(without flushing!); lines inside a code block pass through; heading lines
flush and pass through; an indented line continues the open paragraph
(space-joined, bullet marker stripped); any other line starts a new
paragraph from its bullet-stripped text. -/
def cbpLine (st : CbpSt) (l : Str) : CbpSt :=
  if pyStrip l = [] then
    { st with paras := if st.cur ≠ [] then st.paras ++ [st.cur] else st.paras,
              cur := [] }
  else if (pyStrip l).take 3 = chars "```" then
    { st with paras := st.paras ++ [l], inb := !st.inb }
  else if st.inb then { st with paras := st.paras ++ [l] }
  else if (pyStrip l).take 1 = chars "#" then
    { paras := (if st.cur ≠ [] then st.paras ++ [st.cur] else st.paras) ++ [l],
      cur := [], inb := st.inb }
  else
    let clean := stripBullet l
    if l.take 2 = chars "  " ∨ l.take 1 = chars "\t" then
      { st with cur := if st.cur ≠ [] then st.cur ++ [' '] ++ clean else clean }
    else
      { paras := if st.cur ≠ [] then st.paras ++ [st.cur] else st.paras,
        cur := clean, inb := st.inb }

/-- `convert_bullet_to_paragraph(content, platform="obsidian")`. -/
def convert_bullet_to_paragraph (content : Str) (platform : Str) : Str :=
  if platform ≠ chars "obsidian" ∧ platform ≠ chars "quarto" then content
  else
    let st := (splitCh '\n' content).foldl cbpLine ⟨[], [], false⟩
    joinWith (chars "\n\n")
      (if st.cur ≠ [] then st.paras ++ [st.cur] else st.paras)

/-- Position (from the front) of the last separator inside a separator
run, used by the `re.split(r'\n\s*\n', ...)` model. -/
def lastIdxOf (c : Char) (l : Str) : Nat :=
  l.length - 1 - l.reverse.findIdx fun x => x == c

/-- `re.split(r'\n\s*\n', content)`: a greedy leftmost match starts at a
newline, swallows the longest whitespace run that still ends in a newline,
and cuts the string there.  Piece accumulation is explicit (`acc` is the
reversed current piece). -/
def splitParasAux : Str → Str → List Str
  | acc, [] => [acc.reverse]
  | acc, '\n' :: rest =>
      let run := rest.takeWhile pySpace
      if '\n' ∈ run then
        acc.reverse :: splitParasAux [] (rest.drop (lastIdxOf '\n' run + 1))
      else splitParasAux ('\n' :: acc) rest
  | acc, c :: rest => splitParasAux (c :: acc) rest
termination_by acc l => l.length
decreasing_by
  · simp only [List.length_cons, List.length_drop]
    omega
  · simp
  · simp

/-- `re.split(r'\n\s*\n', content)` on the whole content. -/
def splitParas (content : Str) : List Str := splitParasAux [] content

/-- `re.match(r'^#+\s+', line)`: one or more hashes then whitespace. -/
def isHashHeading (l : Str) : Bool :=
  let hs := l.takeWhile fun c => c = '#'
  hs ≠ [] && (match l.drop hs.length with
    | c :: _ => pySpace c
    | [] => false)

/-- `convert_paragraph_to_bullet(content)`: split on blank-line gaps; a
paragraph whose (stripped) first line is a heading keeps it and bullets the
remaining lines (or emits a placeholder bullet `- ` when there are none);
any other paragraph bullets its first line and two-space-indents the rest. -/
def convert_paragraph_to_bullet (content : Str) : Str :=
  let result := (splitParas content).foldl
    (fun result para =>
      let lines := splitCh '\n' (pyStrip para)
      match lines with
      | l0 :: rest =>
          if isHashHeading l0 then
            if rest ≠ [] then
              result ++ [l0] ++ rest.map (fun l => chars "- " ++ l)
            else result ++ [l0] ++ [chars "- "]
          else
            result ++ [chars "- " ++ l0] ++ rest.map (fun l => chars "  " ++ l)
      | [] => result)
    []
  joinWith (chars "\n") result

/-- `re.sub(r'^>\s*', '', line)`: strip one leading `>` and the whitespace
after it. -/
def stripBlockquote (line : Str) : Str :=
  match line with
  | '>' :: tl => tl.dropWhile pySpace
  | _ => line

/-- The bullets→blockquotes list comprehension of `convert_section_format`
(line 305). -/
def bulletsToBlockquotes (content : Str) : Str :=
  joinWith (chars "\n")
    ((splitCh '\n' content).map fun l => chars "> " ++ stripBullet l)

/-- The blockquotes→bullets list comprehension of `convert_section_format`
(line 309). -/
def blockquotesToBullets (content : Str) : Str :=
  joinWith (chars "\n")
    ((splitCh '\n' content).map fun l => chars "- " ++ stripBlockquote l)

/-- The style dispatch of `convert_section_format` once the two format
names have been read from the schema: identical styles (and any pair
without a conversion branch) return the text unchanged. -/
def convertFormats (content : Str) (sourceFmt targetFmt : Str) : Str :=
  if sourceFmt = targetFmt then content
  else if sourceFmt = chars "bullets" ∧ targetFmt = chars "paragraphs" then
    convert_bullet_to_paragraph content (chars "obsidian")
  else if sourceFmt = chars "paragraphs" ∧ targetFmt = chars "bullets" then
    convert_paragraph_to_bullet content
  else if sourceFmt = chars "bullets" ∧ targetFmt = chars "blockquotes" then
    bulletsToBlockquotes content
  else if sourceFmt = chars "blockquotes" ∧ targetFmt = chars "bullets" then
    blockquotesToBullets content
  else content

/-- `convert_section_format(section_content, note_type, section_name,
source_format, target_format)`: look up
`\<source_format>_format` (default `"bullets"`) and `\<target_format>_format`
(default `"paragraphs"`) in the schema entry, then dispatch. -/
def convert_section_format (schema : Schema) (content : Str)
    (noteType sectionName sourceFormat targetFormat : Str) : Str :=
  let pol := sectionPolicy schema noteType sectionName
  let sourceFmt :=
    (alookup (sourceFormat ++ chars "_format") pol.formats).getD (chars "bullets")
  let targetFmt :=
    (alookup (targetFormat ++ chars "_format") pol.formats).getD
      (chars "paragraphs")
  convertFormats content sourceFmt targetFmt

/-! ### Frontmatter merge (`merge_frontmatter`, lines 446-487) -/

/-- A YAML metadata value: a string, a list of strings, or the unset value
`None` (the shapes the merge and transform code actually handles). -/
inductive Val where
  | str (s : Str)
  | list (l : List Str)
  | null
deriving DecidableEq

/-- Metadata mapping, the model of a parsed frontmatter dict. -/
abbrev Meta := List (Str × Val)

/-- `CONFIG[platform]["required_yaml"]` (Python raises `KeyError` for any
other platform name; the model totalizes with `[]`). -/
def required_yaml (platform : Str) : List Str :=
  if platform = chars "logseq" then [chars "title", chars "type"]
  else if platform = chars "obsidian" then
    [chars "title", chars "tags", chars "created"]
  else if platform = chars "quarto" then
    [chars "title", chars "format", chars "date", chars "categories"]
  else []

/-- Python `str.lower()`. -/
def pyLower (s : Str) : Str := s.map Char.toLower

/-- `source_meta.get("type", "note").lower()` (a non-string `type` value
would raise `AttributeError` in Python; the model totalizes it to
`"note"`). -/
def noteTypeOf (src : Meta) : Str :=
  match alookup (chars "type") src with
  | some (Val.str s) => pyLower s
  | _ => chars "note"

/-- `Path(p).name`: the part after the last slash. -/
def pyName (p : Str) : Str := ((splitCh '/' p).getLastD [])

/-- `Path(p).stem`: the name without its last suffix; the dot must be
neither the first nor the last character of the name. -/
def pyStem (p : Str) : Str :=
  let nm := pyName p
  if '.' ∈ nm then
    let i := nm.length - 1 - (nm.reverse.findIdx fun c => c == '.')
    if 0 < i ∧ i < nm.length - 1 then nm.take i else nm
  else nm

/-- Python `str.title()`: an alphabetic character is upper-cased after a
non-alphabetic character and lower-cased after an alphabetic one. -/
def pyTitle (s : Str) : Str :=
  (s.foldl
    (fun acc c =>
      (acc.1 ++ [if c.isAlpha then (if acc.2 then c.toLower else c.toUpper)
                 else c],
       c.isAlpha))
    ([], false)).1

/-- `Path(file_path).stem.replace("-", " ").title()` when `file_path` is
truthy and its stem non-empty. -/
def titleCandidate (path : Option Str) : Option Str :=
  match path with
  | some p =>
      if p ≠ [] ∧ pyStem p ≠ [] then
        some (pyTitle ((pyStem p).map fun c => if c = '-' then ' ' else c))
      else none
  | none => none

/-- The default-synthesis chain of `merge_frontmatter` for a required key
that is still missing (a `title` without a usable file path falls through
the whole chain to the final empty-string default, as in the code). -/
def defaultFor (key : Str) (src : Meta) (path : Option Str) (today : Str) :
    Val :=
  match (if key = chars "title" then titleCandidate path else none) with
  | some t => Val.str t
  | none =>
      if key = chars "date" ∨ key = chars "created" then Val.str today
      else if key = chars "format" then Val.str (chars "html")
      else if key = chars "type" then Val.str (noteTypeOf src)
      else if key = chars "tags" ∨ key = chars "categories" then
        if key = chars "tags" then
          match alookup (chars "categories") src with
          | some v => v
          | none => Val.list []
        else
          match alookup (chars "tags") src with
          | some v => v
          | none => Val.list []
      else Val.str []

/-- Phase 1 of `merge_frontmatter`: start from `{**target_meta}` and write
every source key over it, skipping a source key that is platform-required
and already present in the target. -/
def mergeOverwrite (src tgt : Meta) (platform : Str) : Meta :=
  src.foldl
    (fun m e =>
      if e.1 ∈ required_yaml platform ∧ (alookup e.1 tgt).isSome then m
      else dictInsert m e.1 e.2)
    tgt

/-- Phase 2 of `merge_frontmatter`: synthesize a default for every
required key still missing. -/
def mergeRequired (src tgt : Meta) (platform : Str) (path : Option Str)
    (today : Str) : Meta :=
  (required_yaml platform).foldl
    (fun m key =>
      if (alookup key m).isSome then m
      else dictInsert m key (defaultFor key src path today))
    (mergeOverwrite src tgt platform)

/-- Phase 3 of `merge_frontmatter`: the Quarto special case, back-filling
`categories` from the source `tags` when the key is (entirely) absent. -/
def mergeQuartoBackfill (src : Meta) (platform : Str) (m : Meta) : Meta :=
  if platform = chars "quarto" ∧ (alookup (chars "tags") src).isSome ∧
      (alookup (chars "categories") m).isNone then
    dictInsert m (chars "categories") ((alookup (chars "tags") src).getD Val.null)
  else m

/-- `merge_frontmatter(source_meta, target_meta, platform, file_path)`;
`today` models `datetime.now().strftime("%Y-%m-%d")`. -/
def merge_frontmatter (src tgt : Meta) (platform : Str) (path : Option Str)
    (today : Str) : Meta :=
  mergeQuartoBackfill src platform (mergeRequired src tgt platform path today)

/-! ### YAML frontmatter transformer (`yaml_transformer.py`) -/

/-- One entry of the `TRANSFORMATIONS` table.  `arity1` records whether the
Python lambda takes a single argument (`co_argcount == 1`): when the key is
present the function is applied to the value (and, for two-argument
lambdas, the whole metadata); when the key is absent only a one-argument
function is invoked, on `None`, to generate a default.  As in the Python
glue code, a `Val.null` (Python `None`) result means "omit the key" — even
when it merely passed an unset input value through. -/
structure FieldTransform where
  arity1 : Bool
  fn : Val → Meta → Val

/-- Python truthiness of a metadata value (`None`, `""` and `[]` are
falsy). -/
def pyTruthyVal : Val → Bool
  | Val.str s => s ≠ []
  | Val.list l => l ≠ []
  | Val.null => false

/-- The `TRANSFORMATIONS` table, entry for entry.  `today` models the
`datetime.now().strftime('%Y-%m-%d')` calls inside the lambdas. -/
def TRANSFORMATIONS (today : Str) : List (Str × List (Str × FieldTransform)) :=
  [ (chars "logseq_to_obsidian",
      [ (chars "title", ⟨true, fun v _ => v⟩),
        (chars "type", ⟨true, fun _ _ => Val.null⟩),
        (chars "tags", ⟨true, fun v _ =>
          match v with
          | Val.str s => Val.list (splitCh ',' s)
          | _ => v⟩),
        (chars "created", ⟨true, fun v _ =>
          if pyTruthyVal v then v else Val.str today⟩) ]),
    (chars "logseq_to_quarto",
      [ (chars "title", ⟨true, fun v _ => v⟩),
        (chars "type", ⟨true, fun _ _ => Val.null⟩),
        (chars "format", ⟨true, fun _ _ => Val.str (chars "html")⟩),
        (chars "date", ⟨true, fun _ _ => Val.str today⟩),
        (chars "categories", ⟨true, fun _ _ => Val.list []⟩) ]),
    (chars "obsidian_to_logseq",
      [ (chars "title", ⟨true, fun v _ => v⟩),
        (chars "tags", ⟨true, fun _ _ => Val.null⟩),
        (chars "created", ⟨true, fun _ _ => Val.null⟩),
        (chars "type", ⟨true, fun _ _ => Val.str (chars "note")⟩) ]),
    (chars "obsidian_to_quarto",
      [ (chars "title", ⟨true, fun v _ => v⟩),
        (chars "tags", ⟨true, fun _ _ => Val.null⟩),
        (chars "created", ⟨true, fun _ _ => Val.null⟩),
        (chars "format", ⟨true, fun _ _ => Val.str (chars "html")⟩),
        (chars "date", ⟨false, fun _ meta =>
          (alookup (chars "created") meta).getD (Val.str today)⟩),
        (chars "categories", ⟨false, fun _ meta =>
          (alookup (chars "tags") meta).getD (Val.list [])⟩) ]),
    (chars "quarto_to_logseq",
      [ (chars "title", ⟨true, fun v _ => v⟩),
        (chars "format", ⟨true, fun _ _ => Val.null⟩),
        (chars "date", ⟨true, fun _ _ => Val.null⟩),
        (chars "categories", ⟨true, fun _ _ => Val.null⟩),
        (chars "type", ⟨true, fun _ _ => Val.str (chars "note")⟩) ]),
    (chars "quarto_to_obsidian",
      [ (chars "title", ⟨true, fun v _ => v⟩),
        (chars "format", ⟨true, fun _ _ => Val.null⟩),
        (chars "date", ⟨true, fun _ _ => Val.null⟩),
        (chars "categories", ⟨true, fun _ _ => Val.null⟩),
        (chars "tags", ⟨false, fun _ meta =>
          (alookup (chars "categories") meta).getD (Val.list [])⟩),
        (chars "created", ⟨false, fun _ meta =>
          (alookup (chars "date") meta).getD (Val.str today)⟩) ]) ]

/-- The six directed pairs defined by the transformation table. -/
def definedPairs : List (Str × Str) :=
  [ (chars "logseq", chars "obsidian"), (chars "logseq", chars "quarto"),
    (chars "obsidian", chars "logseq"), (chars "obsidian", chars "quarto"),
    (chars "quarto", chars "logseq"), (chars "quarto", chars "obsidian") ]

/-- `transform_frontmatter(frontmatter, source_platform, target_platform)`:
raise `ValueError` when the `\<source>_to_\<target>` key is not in the table;
otherwise apply the per-key transformations (dropping keys whose transform
returns `None`, generating defaults for missing keys from one-argument
transforms) and copy through every untransformed key. -/
def transform_frontmatter (fm : Meta) (sourcePlatform targetPlatform : Str)
    (today : Str) : Except Str Meta :=
  let transformKey := sourcePlatform ++ chars "_to_" ++ targetPlatform
  match alookup transformKey (TRANSFORMATIONS today) with
  | none => Except.error (chars "Transformation not supported")
  | some transforms =>
      let applied := transforms.foldl
        (fun acc e =>
          match alookup e.1 fm with
          | some v =>
              let r := e.2.fn v fm
              if r ≠ Val.null then dictInsert acc e.1 r else acc
          | none =>
              if e.2.arity1 then
                let r := e.2.fn Val.null fm
                if r ≠ Val.null then dictInsert acc e.1 r else acc
              else acc)
        []
      Except.ok (fm.foldl
        (fun acc e =>
          if (alookup e.1 transforms).isNone ∧ (alookup e.1 acc).isNone then
            dictInsert acc e.1 e.2
          else acc)
        applied)

/-! ### Support lemmas for the resolver -/

theorem alookup_eq_none_of_not_mem (k : Str) (d : List (Str × α))
    (h : k ∉ keysOf d) : alookup k d = none := by
  cases hs : alookup k d with
  | none => rfl
  | some v =>
      exact absurd ((alookup_isSome_iff_mem_keys k d).mp (by rw [hs]; rfl)) h

theorem alookup_map_pairs (l : List Str) (f : Str → β) (name : Str) :
    alookup name (l.map fun n => (n, f n)) =
      if name ∈ l then some (f name) else none := by
  induction l with
  | nil => simp [alookup]
  | cons x xs ih =>
    by_cases hx : x = name
    · simp [alookup, hx]
    · simp only [List.map_cons, alookup, if_neg hx, ih]
      by_cases hmem : name ∈ xs
      · rw [if_pos hmem, if_pos (List.mem_cons_of_mem x hmem)]
      · rw [if_neg hmem, if_neg]
        intro h
        rcases List.mem_cons.mp h with h | h
        · exact hx h.symm
        · exact hmem h

theorem mem_dedupKeys (x : Str) (l : List Str) : x ∈ dedupKeys l ↔ x ∈ l := by
  induction l with
  | nil => simp [dedupKeys]
  | cons y ys ih =>
    simp only [dedupKeys, List.mem_cons]
    by_cases hy : y ∈ dedupKeys ys
    · rw [if_pos hy, ih]
      constructor
      · exact fun h => Or.inr h
      · rintro (rfl | h)
        · exact ih.mp hy
        · exact h
    · rw [if_neg hy]
      simp only [List.mem_cons, ih]

theorem mem_unionKeys (name : Str) (src tgt : List (Str × α)) :
    name ∈ unionKeys src tgt ↔ name ∈ keysOf src ∨ name ∈ keysOf tgt := by
  unfold unionKeys
  rw [mem_dedupKeys, List.mem_append]

theorem alookup_determine_sync_direction (schema : Schema)
    (src tgt : List (Str × Str)) (noteType name : Str) :
    alookup name (determine_sync_direction schema src tgt noteType) =
      if name ∈ keysOf src ∨ name ∈ keysOf tgt then
        some (directionFor schema src tgt noteType name)
      else none := by
  unfold determine_sync_direction
  rw [alookup_map_pairs, if_congr (mem_unionKeys name src tgt) rfl rfl]

/-! ### Support lemmas for the frontmatter merge -/

theorem alookup_overwrite_fold (platform : Str) (tgt : Meta) (k : Str) :
    ∀ (xs : Meta) (m : Meta), (keysOf xs).Nodup →
    alookup k (xs.foldl
      (fun m e =>
        if e.1 ∈ required_yaml platform ∧ (alookup e.1 tgt).isSome then m
        else dictInsert m e.1 e.2)
      m) =
      match alookup k xs with
      | some v =>
          if k ∈ required_yaml platform ∧ (alookup k tgt).isSome then
            alookup k m
          else some v
      | none => alookup k m := by
  intro xs
  induction xs with
  | nil => intro m _; simp [alookup]
  | cons e xs' ih =>
    intro m hnd
    have hnd' : (keysOf xs').Nodup := (List.nodup_cons.mp hnd).2
    have hnotm : e.1 ∉ keysOf xs' := (List.nodup_cons.mp hnd).1
    rw [List.foldl_cons, ih _ hnd']
    by_cases hek : e.1 = k
    · subst hek
      have hxs' : alookup e.1 xs' = none :=
        alookup_eq_none_of_not_mem e.1 xs' hnotm
      have hcons : alookup e.1 (e :: xs') = some e.2 := by simp [alookup]
      simp only [hxs', hcons]
      by_cases hc : e.1 ∈ required_yaml platform ∧ (alookup e.1 tgt).isSome
      · simp only [if_pos hc]
      · simp only [if_neg hc, alookup_dictInsert_self]
    · have hcons : alookup k (e :: xs') = alookup k xs' := by
        simp [alookup, hek]
      have hstep :
          alookup k (if e.1 ∈ required_yaml platform ∧ (alookup e.1 tgt).isSome
            then m else dictInsert m e.1 e.2) = alookup k m := by
        by_cases hc : e.1 ∈ required_yaml platform ∧ (alookup e.1 tgt).isSome
        · rw [if_pos hc]
        · rw [if_neg hc, alookup_dictInsert_ne _ _ _ _ fun h => hek h.symm]
      simp only [hcons, hstep]

theorem alookup_required_fold (src : Meta) (path : Option Str) (today : Str)
    (k : Str) :
    ∀ (req : List Str) (m : Meta),
    alookup k (req.foldl
      (fun m key =>
        if (alookup key m).isSome then m
        else dictInsert m key (defaultFor key src path today))
      m) =
      match alookup k m with
      | some v => some v
      | none =>
          if k ∈ req then some (defaultFor k src path today) else none := by
  intro req
  induction req with
  | nil => intro m; cases h : alookup k m <;> simp [h]
  | cons r req' ih =>
    intro m
    rw [List.foldl_cons, ih]
    by_cases hrk : r = k
    · subst hrk
      cases hm : alookup r m with
      | some v => simp only [Option.isSome_some, if_true, hm]
      | none =>
          simp only [Option.isSome_none, Bool.false_eq_true, if_false,
            alookup_dictInsert_self]
          rw [if_pos (List.mem_cons_self r req')]
    · have hstep :
          alookup k (if (alookup r m).isSome then m
            else dictInsert m r (defaultFor r src path today)) = alookup k m := by
        by_cases hc : (alookup r m).isSome
        · rw [if_pos hc]
        · rw [if_neg hc, alookup_dictInsert_ne _ _ _ _ fun h => hrk h.symm]
      rw [hstep]
      cases hm : alookup k m with
      | some v => simp only [hm]
      | none =>
          simp only [hm]
          by_cases hmem : k ∈ req'
          · rw [if_pos hmem, if_pos (List.mem_cons_of_mem r hmem)]
          · rw [if_neg hmem, if_neg]
            intro h
            rcases List.mem_cons.mp h with h | h
            · exact hrk h.symm
            · exact hmem h

theorem alookup_mergeOverwrite (src tgt : Meta) (platform : Str) (k : Str)
    (hnd : (keysOf src).Nodup) :
    alookup k (mergeOverwrite src tgt platform) =
      match alookup k src with
      | some v =>
          if k ∈ required_yaml platform ∧ (alookup k tgt).isSome then
            alookup k tgt
          else some v
      | none => alookup k tgt :=
  alookup_overwrite_fold platform tgt k src tgt hnd

theorem alookup_mergeRequired (src tgt : Meta) (platform : Str)
    (path : Option Str) (today : Str) (k : Str) (hnd : (keysOf src).Nodup) :
    alookup k (mergeRequired src tgt platform path today) =
      match alookup k (mergeOverwrite src tgt platform) with
      | some v => some v
      | none =>
          if k ∈ required_yaml platform then
            some (defaultFor k src path today)
          else none :=
  alookup_required_fold src path today k (required_yaml platform)
    (mergeOverwrite src tgt platform)

/-- The Quarto back-fill never changes a `categories` key that is already
present (even with an unset value); it only inserts a missing one. -/
theorem quartoBackfill_preserves_present (src : Meta) (platform : Str)
    (m : Meta) (v : Val) (h : alookup (chars "categories") m = some v) :
    alookup (chars "categories") (mergeQuartoBackfill src platform m) =
      some v := by
  unfold mergeQuartoBackfill
  rw [if_neg, h]
  rintro ⟨-, -, hnone⟩
  rw [h] at hnone
  exact absurd hnone (by simp)

theorem alookup_quartoBackfill_other (src : Meta) (platform : Str) (m : Meta)
    (k : Str) (hk : k ≠ chars "categories") :
    alookup k (mergeQuartoBackfill src platform m) = alookup k m := by
  unfold mergeQuartoBackfill
  by_cases hc : platform = chars "quarto" ∧ (alookup (chars "tags") src).isSome ∧
      (alookup (chars "categories") m).isNone
  · rw [if_pos hc, alookup_dictInsert_ne _ _ _ _ hk]
  · rw [if_neg hc]

/-! ### Claim theorems -/

/-- Claim C1: for a section name present in both section maps whose schema
entry has `sync` true (or no entry, so the default `{sync: true}` applies),
the resolver assigns `none` when the content hashes of the two texts are
equal, `none` when the hashes differ but the similarity score is strictly
greater than 0.9, and `source_to_target` otherwise. -/
theorem c1_direction_both_present (schema : Schema) (src tgt : List (Str × Str))
    (noteType name sv tv : Str)
    (hpol : (sectionPolicy schema noteType name).sync = true)
    (hs : alookup name src = some sv) (ht : alookup name tgt = some tv) :
    alookup name (determine_sync_direction schema src tgt noteType) =
      some (if get_section_hash sv = get_section_hash tv then chars "none"
            else if similarity sv tv > (9 : ℚ) / 10 then chars "none"
            else chars "source_to_target") := by
  have hmem : name ∈ keysOf src ∨ name ∈ keysOf tgt :=
    Or.inl ((alookup_isSome_iff_mem_keys name src).mp (by rw [hs]; rfl))
  rw [alookup_determine_sync_direction, if_pos hmem]
  simp only [directionFor, hpol, Bool.not_true, Bool.false_eq_true, if_false,
    hs, ht]

/-- Unfolding helper: the similarity score from a computed matching total. -/
theorem similarity_eq (a b : Str) (m : Nat)
    (h : matchingSum a b (a.length + b.length + 1) 0 a.length 0 b.length = m)
    (hne : ¬ a.length + b.length = 0) :
    similarity a b = (2 * m : ℚ) / ((a.length + b.length : ℕ) : ℚ) := by
  simp only [similarity]
  rw [if_neg hne, h]

/-- Witness for C1 at a concrete divergent pair (score 0 ≤ 0.9, so the
source wins). -/
theorem c1_direction_both_present_witness :
    alookup (chars "a")
      (determine_sync_direction defaultSchema
        [(chars "a", chars "x")] [(chars "a", chars "y")] (chars "note")) =
      some (chars "source_to_target") := by
  have h := c1_direction_both_present defaultSchema
    [(chars "a", chars "x")] [(chars "a", chars "y")]
    (chars "note") (chars "a") (chars "x") (chars "y")
    (by decide) (by decide) (by decide)
  have hsim := similarity_eq (chars "x") (chars "y") 0 (by decide) (by decide)
  have h2 : ¬ (similarity (chars "x") (chars "y") > (9 : ℚ) / 10) := by
    rw [hsim,
      show List.length (chars "x") + List.length (chars "y") = 2 by decide]
    norm_num
  rw [h, if_neg (by decide), if_neg h2]

/-- Claim C2: the key set of the resolver's result is exactly the union of
the section names present on either side; a sync-enabled name present only
on the source side maps to `source_to_target`, one present only on the
target side maps to `target_to_source`. -/
theorem c2_union_and_one_sided (schema : Schema) (src tgt : List (Str × Str))
    (noteType : Str) :
    (∀ name,
      (alookup name (determine_sync_direction schema src tgt noteType)).isSome ↔
        ((alookup name src).isSome ∨ (alookup name tgt).isSome))
    ∧ (∀ name sv, (sectionPolicy schema noteType name).sync = true →
        alookup name src = some sv → alookup name tgt = none →
        alookup name (determine_sync_direction schema src tgt noteType) =
          some (chars "source_to_target"))
    ∧ (∀ name tv, (sectionPolicy schema noteType name).sync = true →
        alookup name src = none → alookup name tgt = some tv →
        alookup name (determine_sync_direction schema src tgt noteType) =
          some (chars "target_to_source")) := by
  refine ⟨fun name => ?_, fun name sv hpol hs ht => ?_, fun name tv hpol hs ht => ?_⟩
  · rw [alookup_determine_sync_direction,
      alookup_isSome_iff_mem_keys name src, alookup_isSome_iff_mem_keys name tgt]
    by_cases hmem : name ∈ keysOf src ∨ name ∈ keysOf tgt
    · rw [if_pos hmem]
      exact ⟨fun _ => hmem, fun _ => rfl⟩
    · rw [if_neg hmem]
      exact iff_of_false (by simp) hmem
  · have hmem : name ∈ keysOf src ∨ name ∈ keysOf tgt :=
      Or.inl ((alookup_isSome_iff_mem_keys name src).mp (by rw [hs]; rfl))
    rw [alookup_determine_sync_direction, if_pos hmem]
    simp only [directionFor, hpol, Bool.not_true, Bool.false_eq_true, if_false,
      hs, ht]
  · have hmem : name ∈ keysOf src ∨ name ∈ keysOf tgt :=
      Or.inr ((alookup_isSome_iff_mem_keys name tgt).mp (by rw [ht]; rfl))
    rw [alookup_determine_sync_direction, if_pos hmem]
    simp only [directionFor, hpol, Bool.not_true, Bool.false_eq_true, if_false,
      hs, ht]

/-- Witness for C2 at concrete one-sided inputs. -/
theorem c2_union_and_one_sided_witness :
    alookup (chars "a")
      (determine_sync_direction defaultSchema [(chars "a", chars "x")] []
        (chars "note")) = some (chars "source_to_target") ∧
    alookup (chars "b")
      (determine_sync_direction defaultSchema [] [(chars "b", chars "y")]
        (chars "note")) = some (chars "target_to_source") ∧
    (alookup (chars "z")
      (determine_sync_direction defaultSchema [(chars "a", chars "x")] []
        (chars "note"))).isSome = false := by
  refine ⟨?_, ?_, ?_⟩
  · exact (c2_union_and_one_sided defaultSchema [(chars "a", chars "x")] []
      (chars "note")).2.1 (chars "a") (chars "x") (by decide) (by decide)
      (by decide)
  · exact (c2_union_and_one_sided defaultSchema [] [(chars "b", chars "y")]
      (chars "note")).2.2 (chars "b") (chars "y") (by decide) (by decide)
      (by decide)
  · cases hz : alookup (chars "z")
        (determine_sync_direction defaultSchema [(chars "a", chars "x")] []
          (chars "note")) with
    | none => rfl
    | some v =>
        exact absurd
          (((c2_union_and_one_sided defaultSchema [(chars "a", chars "x")] []
            (chars "note")).1 (chars "z")).mp (by rw [hz]; rfl))
          (by decide)

/-- Claim C6: converting a text from a style to the same style is the
identity, for every style. -/
theorem c6_convert_same_style_id (text style : Str) :
    convertFormats text style style = text := by
  unfold convertFormats
  rw [if_pos rfl]

/-- Claim C9, counterexample: a section literally named `bidirectional`
makes the back-sync trigger of the orchestrator true (every direction
string is non-empty, hence truthy), so the resolver's mapping CAN satisfy
the trigger condition, contrary to the claim. -/
theorem c9_trigger_cex :
    backSyncTrigger (determine_sync_direction defaultSchema
      [(chars "bidirectional", chars "x")] [] (chars "note")) = true := by
  decide

/-- Claim C9 (amended): when no section on either side is named
`bidirectional`, the key is absent from the resolver's mapping, the lookup
falls back to `False`, and the back-sync trigger is false — so the
recursive back-sync is unreachable for every note whose sections do not
include one named `bidirectional`. -/
theorem c9_trigger_amended (schema : Schema) (src tgt : List (Str × Str))
    (noteType : Str)
    (hs : alookup (chars "bidirectional") src = none)
    (ht : alookup (chars "bidirectional") tgt = none) :
    backSyncTrigger (determine_sync_direction schema src tgt noteType) =
      false := by
  unfold backSyncTrigger
  rw [alookup_determine_sync_direction, if_neg]
  rintro (h | h)
  · exact absurd ((alookup_isSome_iff_mem_keys _ src).mpr h) (by rw [hs]; simp)
  · exact absurd ((alookup_isSome_iff_mem_keys _ tgt).mpr h) (by rw [ht]; simp)

/-- Witness for the amended C9 at concrete inputs. -/
theorem c9_trigger_amended_witness :
    backSyncTrigger (determine_sync_direction defaultSchema
      [(chars "overview", chars "x")] [(chars "notes", chars "y")]
      (chars "note")) = false :=
  c9_trigger_amended defaultSchema [(chars "overview", chars "x")]
    [(chars "notes", chars "y")] (chars "note") (by decide) (by decide)

/-- Claim C8: the metadata transform succeeds exactly on the six directed
platform pairs of the `TRANSFORMATIONS` table and raises (`ValueError`,
modelled as `Except.error`) on every other pair of platform selectors,
independently of the input frontmatter. -/
theorem c8_transform_defined_pairs (fm : Meta) (today srcP tgtP : Str)
    (hs : srcP ∈ [chars "logseq", chars "obsidian", chars "quarto"])
    (ht : tgtP ∈ [chars "logseq", chars "obsidian", chars "quarto"]) :
    (transform_frontmatter fm srcP tgtP today).isOk = true ↔
      (srcP, tgtP) ∈ definedPairs := by
  simp only [List.mem_cons, List.not_mem_nil, or_false] at hs ht
  rcases hs with rfl | rfl | rfl <;> rcases ht with rfl | rfl | rfl
  · exact iff_of_false (fun h => Bool.false_ne_true h) (by decide)
  · exact iff_of_true rfl (by decide)
  · exact iff_of_true rfl (by decide)
  · exact iff_of_true rfl (by decide)
  · exact iff_of_false (fun h => Bool.false_ne_true h) (by decide)
  · exact iff_of_true rfl (by decide)
  · exact iff_of_true rfl (by decide)
  · exact iff_of_true rfl (by decide)
  · exact iff_of_false (fun h => Bool.false_ne_true h) (by decide)

/-- Witness for C8: a defined pair succeeds, the diagonal pair fails. -/
theorem c8_transform_defined_pairs_witness :
    (transform_frontmatter [(chars "title", Val.str (chars "T"))]
      (chars "logseq") (chars "obsidian") (chars "2026-10-12")).isOk = true ∧
    ¬ (transform_frontmatter [(chars "title", Val.str (chars "T"))]
      (chars "logseq") (chars "logseq") (chars "2026-10-12")).isOk = true := by
  constructor
  · exact (c8_transform_defined_pairs [(chars "title", Val.str (chars "T"))]
      (chars "2026-10-12") (chars "logseq") (chars "obsidian")
      (by decide) (by decide)).mpr (by decide)
  · intro h
    exact absurd ((c8_transform_defined_pairs
      [(chars "title", Val.str (chars "T"))] (chars "2026-10-12")
      (chars "logseq") (chars "logseq") (by decide) (by decide)).mp h)
      (by decide)

/-- Claim C7, counterexample (negation of the claimed existence): the
Quarto back-fill checks key *presence* (`"categories" not in merged`), so a
`categories` key that exists in the merged mapping with the unset value
`None` is never overwritten with the source `tags`: no input exhibits the
claimed behaviour (the source `tags` being an actual, non-`None` value). -/
theorem c7_backfill_cex :
    ¬ ∃ (src tgt : Meta) (path : Option Str) (today : Str) (t : Val),
        alookup (chars "categories")
          (mergeRequired src tgt (chars "quarto") path today) = some Val.null ∧
        alookup (chars "tags") src = some t ∧ t ≠ Val.null ∧
        alookup (chars "categories")
          (merge_frontmatter src tgt (chars "quarto") path today) = some t := by
  rintro ⟨src, tgt, path, today, t, h1, -, hne, h4⟩
  have h5 := quartoBackfill_preserves_present src (chars "quarto")
    (mergeRequired src tgt (chars "quarto") path today) Val.null h1
  rw [show merge_frontmatter src tgt (chars "quarto") path today =
        mergeQuartoBackfill src (chars "quarto")
          (mergeRequired src tgt (chars "quarto") path today) from rfl,
      h5] at h4
  exact hne (Option.some_injective _ h4).symm

/-- Claim C7 (amended): the Quarto special case back-fills `categories`
from the source `tags` only when the key is entirely absent from the merged
mapping; a `categories` key that already exists with an unset (`None`)
value after the required-key phase stays `None` in the final result. -/
theorem c7_backfill_amended (src tgt : Meta) (path : Option Str) (today : Str)
    (h : alookup (chars "categories")
        (mergeRequired src tgt (chars "quarto") path today) = some Val.null) :
    alookup (chars "categories")
      (merge_frontmatter src tgt (chars "quarto") path today) =
      some Val.null :=
  quartoBackfill_preserves_present src (chars "quarto") _ Val.null h

/-- Witness for the amended C7: a target with `categories: None` and a
source with real tags — the final `categories` stays `None`. -/
theorem c7_backfill_amended_witness :
    alookup (chars "categories")
      (merge_frontmatter [(chars "tags", Val.list [chars "a"])]
        [(chars "categories", Val.null)] (chars "quarto") none
        (chars "2026-10-12")) = some Val.null :=
  c7_backfill_amended [(chars "tags", Val.list [chars "a"])]
    [(chars "categories", Val.null)] none (chars "2026-10-12") (by decide)

theorem merge_frontmatter_def (src tgt : Meta) (platform : Str)
    (path : Option Str) (today : Str) :
    merge_frontmatter src tgt platform path today =
      mergeQuartoBackfill src platform
        (mergeRequired src tgt platform path today) := rfl

/-- Backfill lookup for a key other than `categories`, or when the fire
condition fails, routed through `merge_frontmatter`. -/
theorem alookup_merge_of_mergeRequired (src tgt : Meta) (platform : Str)
    (path : Option Str) (today : Str) (k : Str) (v : Val)
    (h : alookup k (mergeRequired src tgt platform path today) = some v) :
    alookup k (merge_frontmatter src tgt platform path today) = some v := by
  rw [merge_frontmatter_def]
  by_cases hc : k = chars "categories"
  · subst hc
    exact quartoBackfill_preserves_present src platform _ v h
  · rw [alookup_quartoBackfill_other src platform _ k hc]
    exact h

/-- Claim C5: the frontmatter merge starts from the target metadata; every
source key overwrites it except a platform-required key already present in
the target (whose target value is kept); afterwards every required key is
present, synthesized when missing by the documented default chain (title
from the file stem with hyphens to spaces and title-casing, date/created
from the current date, format `"html"`, type from the note's detected type,
tags/categories cross-populated from the other key of the source else an
empty list, anything else an empty string); keys on neither side and not
required stay absent. -/
theorem c5_merge_frontmatter_spec (src tgt : Meta) (platform : Str)
    (path : Option Str) (today : Str) (hnd : (keysOf src).Nodup) :
    (∀ k, k ∈ required_yaml platform →
      (alookup k (merge_frontmatter src tgt platform path today)).isSome)
    ∧ (∀ k v, alookup k src = some v →
        ¬(k ∈ required_yaml platform ∧ (alookup k tgt).isSome) →
        alookup k (merge_frontmatter src tgt platform path today) = some v)
    ∧ (∀ k, k ∈ required_yaml platform → (alookup k tgt).isSome →
        alookup k (merge_frontmatter src tgt platform path today) =
          alookup k tgt)
    ∧ (∀ k v, alookup k tgt = some v → alookup k src = none →
        alookup k (merge_frontmatter src tgt platform path today) = some v)
    ∧ (∀ k, k ∈ required_yaml platform → alookup k src = none →
        alookup k tgt = none →
        alookup k (merge_frontmatter src tgt platform path today) =
          some (defaultFor k src path today))
    ∧ (∀ k, k ∉ required_yaml platform → alookup k src = none →
        alookup k tgt = none →
        alookup k (merge_frontmatter src tgt platform path today) = none) := by
  have h2 : ∀ k v, alookup k src = some v →
      ¬(k ∈ required_yaml platform ∧ (alookup k tgt).isSome) →
      alookup k (merge_frontmatter src tgt platform path today) = some v := by
    intro k v hsrc hskip
    have hp1 : alookup k (mergeOverwrite src tgt platform) = some v := by
      simp only [alookup_mergeOverwrite src tgt platform k hnd, hsrc]
      rw [if_neg hskip]
    have hp2 : alookup k (mergeRequired src tgt platform path today) =
        some v := by
      simp only [alookup_mergeRequired src tgt platform path today k hnd, hp1]
    exact alookup_merge_of_mergeRequired src tgt platform path today k v hp2
  have h3 : ∀ k, k ∈ required_yaml platform → (alookup k tgt).isSome →
      alookup k (merge_frontmatter src tgt platform path today) =
        alookup k tgt := by
    intro k hreq htgt
    cases hts : alookup k tgt with
    | none => rw [hts] at htgt; exact absurd htgt (by simp)
    | some w =>
        have hp1 : alookup k (mergeOverwrite src tgt platform) = some w := by
          simp only [alookup_mergeOverwrite src tgt platform k hnd]
          cases hss : alookup k src with
          | none => exact hts
          | some v =>
              show (if k ∈ required_yaml platform ∧
                    (alookup k tgt).isSome = true
                  then alookup k tgt else some v) = some w
              rw [if_pos ⟨hreq, by rw [hts]; rfl⟩]
              exact hts
        have hp2 : alookup k (mergeRequired src tgt platform path today) =
            some w := by
          simp only [alookup_mergeRequired src tgt platform path today k hnd,
            hp1]
        exact alookup_merge_of_mergeRequired src tgt platform path today k w hp2
  have h4 : ∀ k v, alookup k tgt = some v → alookup k src = none →
      alookup k (merge_frontmatter src tgt platform path today) = some v := by
    intro k v hts hss
    have hp1 : alookup k (mergeOverwrite src tgt platform) = some v := by
      simp only [alookup_mergeOverwrite src tgt platform k hnd, hss]
      exact hts
    have hp2 : alookup k (mergeRequired src tgt platform path today) =
        some v := by
      simp only [alookup_mergeRequired src tgt platform path today k hnd, hp1]
    exact alookup_merge_of_mergeRequired src tgt platform path today k v hp2
  have h5 : ∀ k, k ∈ required_yaml platform → alookup k src = none →
      alookup k tgt = none →
      alookup k (merge_frontmatter src tgt platform path today) =
        some (defaultFor k src path today) := by
    intro k hreq hss hts
    have hp1 : alookup k (mergeOverwrite src tgt platform) = none := by
      simp only [alookup_mergeOverwrite src tgt platform k hnd, hss]
      exact hts
    have hp2 : alookup k (mergeRequired src tgt platform path today) =
        some (defaultFor k src path today) := by
      simp only [alookup_mergeRequired src tgt platform path today k hnd, hp1]
      rw [if_pos hreq]
    exact alookup_merge_of_mergeRequired src tgt platform path today k _ hp2
  have h6 : ∀ k, k ∉ required_yaml platform → alookup k src = none →
      alookup k tgt = none →
      alookup k (merge_frontmatter src tgt platform path today) = none := by
    intro k hreq hss hts
    have hp1 : alookup k (mergeOverwrite src tgt platform) = none := by
      simp only [alookup_mergeOverwrite src tgt platform k hnd, hss]
      exact hts
    have hp2 : alookup k (mergeRequired src tgt platform path today) =
        none := by
      simp only [alookup_mergeRequired src tgt platform path today k hnd, hp1]
      rw [if_neg hreq]
    rw [merge_frontmatter_def]
    by_cases hc : k = chars "categories"
    · subst hc
      unfold mergeQuartoBackfill
      rw [if_neg, hp2]
      rintro ⟨hq, -, -⟩
      subst hq
      exact hreq (by decide)
    · rw [alookup_quartoBackfill_other src platform _ k hc]
      exact hp2
  refine ⟨?_, h2, h3, h4, h5, h6⟩
  intro k hreq
  cases hts : alookup k tgt with
  | some w => rw [h3 k hreq (by rw [hts]; rfl), hts]; rfl
  | none =>
      cases hss : alookup k src with
      | some v =>
          rw [h2 k v hss (by rintro ⟨-, habs⟩; rw [hts] at habs; simp at habs)]
          rfl
      | none => rw [h5 k hreq hss hts]; rfl

/-- Witness for C5: target requires `title` and none is supplied, so it is
derived from the filename `my-note.md` as "My Note"; and the source `tags`
cross-populate the required `categories`. -/
theorem c5_merge_frontmatter_spec_witness :
    alookup (chars "title")
      (merge_frontmatter [(chars "tags", Val.list [chars "a"])] []
        (chars "quarto") (some (chars "posts/my-note.md"))
        (chars "2026-10-12")) = some (Val.str (chars "My Note")) ∧
    alookup (chars "categories")
      (merge_frontmatter [(chars "tags", Val.list [chars "a"])] []
        (chars "quarto") (some (chars "posts/my-note.md"))
        (chars "2026-10-12")) = some (Val.list [chars "a"]) := by
  constructor
  · have h := (c5_merge_frontmatter_spec [(chars "tags", Val.list [chars "a"])]
      [] (chars "quarto") (some (chars "posts/my-note.md"))
      (chars "2026-10-12") (by decide)).2.2.2.2.1 (chars "title")
      (by decide) (by decide) (by decide)
    rw [h]
    decide
  · have h := (c5_merge_frontmatter_spec [(chars "tags", Val.list [chars "a"])]
      [] (chars "quarto") (some (chars "posts/my-note.md"))
      (chars "2026-10-12") (by decide)).2.2.2.2.1 (chars "categories")
      (by decide) (by decide) (by decide)
    rw [h]
    decide

/-! ### Code-region preservation (claim C3) -/

/-- The lines lying strictly inside a fenced code region: scanning lines in
order, a line whose trimmed text starts with three backticks toggles the
region flag (and is a delimiter, not a region line); other lines belong to
the region exactly when the flag is set. -/
def codeRegionLines : Bool → List Str → List Str
  | _, [] => []
  | inb, l :: ls =>
      if (pyStrip l).take 3 = chars "```" then codeRegionLines (!inb) ls
      else if inb then l :: codeRegionLines inb ls
      else codeRegionLines inb ls

theorem mem_dropWhile (p : Char → Bool) (l : Str) (c : Char)
    (h : c ∈ l.dropWhile p) : c ∈ l := by
  induction l with
  | nil => simpa using h
  | cons a as ih =>
      by_cases hp : p a
      · rw [List.dropWhile_cons_of_pos hp] at h
        exact List.mem_cons_of_mem a (ih h)
      · rw [List.dropWhile_cons_of_neg hp] at h
        exact h

theorem mem_stripBullet (c : Char) (l : Str) (h : c ∈ stripBullet l) :
    c ∈ l := by
  simp only [stripBullet] at h
  split at h
  · rename_i tl heq
    have h1 : c ∈ '-' :: tl := List.mem_cons_of_mem _ (mem_dropWhile _ _ _ h)
    rw [← heq] at h1
    exact mem_dropWhile _ _ _ h1
  · exact h

/-- The `in_code_block` flag after one line of the bullets→paragraphs loop:
toggled by a code-fence delimiter, unchanged otherwise. -/
theorem cbpLine_inb (st : CbpSt) (l : Str) :
    (cbpLine st l).inb =
      if (pyStrip l).take 3 = chars "```" then !st.inb else st.inb := by
  simp only [cbpLine]
  by_cases h1 : pyStrip l = []
  · have h2 : ¬ (pyStrip l).take 3 = chars "```" := by rw [h1]; decide
    rw [if_pos h1, if_neg h2]
  · rw [if_neg h1]
    by_cases h2 : (pyStrip l).take 3 = chars "```"
    · rw [if_pos h2, if_pos h2]
    · rw [if_neg h2, if_neg h2]
      by_cases h3 : st.inb
      · rw [if_pos h3]
      · rw [if_neg h3]
        by_cases h4 : (pyStrip l).take 1 = chars "#"
        · rw [if_pos h4]
        · rw [if_neg h4]
          by_cases h5 : l.take 2 = chars "  " ∨ l.take 1 = chars "\t"
          · rw [if_pos h5]
          · rw [if_neg h5]

/-- Lines already emitted as paragraphs are never removed by a later line
of the bullets→paragraphs loop. -/
theorem cbpLine_paras_mono (st : CbpSt) (l : Str) (x : Str)
    (hx : x ∈ st.paras) : x ∈ (cbpLine st l).paras := by
  simp only [cbpLine]
  by_cases h1 : pyStrip l = []
  · rw [if_pos h1]
    by_cases hc : st.cur ≠ [] <;>
      simp [hc, List.mem_append, hx]
  · rw [if_neg h1]
    by_cases h2 : (pyStrip l).take 3 = chars "```"
    · rw [if_pos h2]; simp [List.mem_append, hx]
    · rw [if_neg h2]
      by_cases h3 : st.inb
      · rw [if_pos h3]; simp [List.mem_append, hx]
      · rw [if_neg h3]
        by_cases h4 : (pyStrip l).take 1 = chars "#"
        · rw [if_pos h4]
          by_cases hc : st.cur ≠ [] <;>
            simp [hc, List.mem_append, hx]
        · rw [if_neg h4]
          by_cases h5 : l.take 2 = chars "  " ∨ l.take 1 = chars "\t"
          · rw [if_pos h5]; simpa using hx
          · rw [if_neg h5]
            by_cases hc : st.cur ≠ [] <;>
              simp [hc, List.mem_append, hx]

theorem cbpFold_paras_mono (ls : List Str) (st : CbpSt) (x : Str)
    (hx : x ∈ st.paras) : x ∈ (ls.foldl cbpLine st).paras := by
  induction ls generalizing st with
  | nil => simpa using hx
  | cons l ls' ih =>
      rw [List.foldl_cons]
      exact ih (cbpLine st l) (cbpLine_paras_mono st l x hx)

/-- Every non-blank line inside a fenced code region is emitted verbatim as
one of the paragraphs of the bullets→paragraphs loop. -/
theorem cbpFold_keeps_code_lines (ls : List Str) (st : CbpSt) (x : Str)
    (hx : x ∈ codeRegionLines st.inb ls) (hnb : pyStrip x ≠ []) :
    x ∈ (ls.foldl cbpLine st).paras := by
  induction ls generalizing st with
  | nil => simp [codeRegionLines] at hx
  | cons l ls' ih =>
      rw [List.foldl_cons]
      by_cases hf : (pyStrip l).take 3 = chars "```"
      · rw [show codeRegionLines st.inb (l :: ls') =
              codeRegionLines (!st.inb) ls' by
            simp [codeRegionLines, hf]] at hx
        have hinb : (cbpLine st l).inb = !st.inb := by
          rw [cbpLine_inb, if_pos hf]
        exact ih (cbpLine st l) (hinb ▸ hx)
      · have hinb : (cbpLine st l).inb = st.inb := by
          rw [cbpLine_inb, if_neg hf]
        by_cases hin : st.inb
        · rw [show codeRegionLines st.inb (l :: ls') =
                l :: codeRegionLines st.inb ls' by
              simp [codeRegionLines, hf, hin]] at hx
          rcases List.mem_cons.mp hx with rfl | hx
          · refine cbpFold_paras_mono ls' _ x ?_
            simp only [cbpLine, if_neg hnb, if_neg hf, if_pos hin]
            simp
          · exact ih (cbpLine st l) (hinb ▸ hx)
        · rw [show codeRegionLines st.inb (l :: ls') =
                codeRegionLines st.inb ls' by
              simp [codeRegionLines, hf, hin]] at hx
          exact ih (cbpLine st l) (hinb ▸ hx)

/-- The paragraph accumulator only ever contains newline-free strings when
fed newline-free lines. -/
theorem cbpLine_nlFree (st : CbpSt) (l : Str)
    (hp : ∀ x ∈ st.paras, '\n' ∉ x) (hc : '\n' ∉ st.cur) (hl : '\n' ∉ l) :
    (∀ x ∈ (cbpLine st l).paras, '\n' ∉ x) ∧ '\n' ∉ (cbpLine st l).cur := by
  have hclean : '\n' ∉ stripBullet l := fun h => hl (mem_stripBullet _ _ h)
  have hflush : ∀ x ∈ (if st.cur ≠ [] then st.paras ++ [st.cur] else st.paras),
      '\n' ∉ x := by
    by_cases hcur : st.cur ≠ []
    · rw [if_pos hcur]
      intro x hx
      rcases List.mem_append.mp hx with hx | hx
      · exact hp x hx
      · rw [List.mem_singleton.mp hx]; exact hc
    · rw [if_neg hcur]; exact hp
  simp only [cbpLine]
  by_cases h1 : pyStrip l = []
  · rw [if_pos h1]
    exact ⟨hflush, by simp⟩
  · rw [if_neg h1]
    by_cases h2 : (pyStrip l).take 3 = chars "```"
    · rw [if_pos h2]
      refine ⟨fun x hx => ?_, hc⟩
      rcases List.mem_append.mp hx with hx | hx
      · exact hp x hx
      · rw [List.mem_singleton.mp hx]; exact hl
    · rw [if_neg h2]
      by_cases h3 : st.inb
      · rw [if_pos h3]
        refine ⟨fun x hx => ?_, hc⟩
        rcases List.mem_append.mp hx with hx | hx
        · exact hp x hx
        · rw [List.mem_singleton.mp hx]; exact hl
      · rw [if_neg h3]
        by_cases h4 : (pyStrip l).take 1 = chars "#"
        · rw [if_pos h4]
          refine ⟨fun x hx => ?_, by simp⟩
          rcases List.mem_append.mp hx with hx | hx
          · exact hflush x hx
          · rw [List.mem_singleton.mp hx]; exact hl
        · rw [if_neg h4]
          by_cases h5 : l.take 2 = chars "  " ∨ l.take 1 = chars "\t"
          · rw [if_pos h5]
            refine ⟨hp, ?_⟩
            by_cases hcur : st.cur ≠ []
            · rw [if_pos hcur]
              intro h
              rcases List.mem_append.mp h with h | h
              · rcases List.mem_append.mp h with h | h
                · exact hc h
                · simp at h
              · exact hclean h
            · rw [if_neg hcur]
              exact hclean
          · rw [if_neg h5]
            exact ⟨hflush, hclean⟩

theorem cbpFold_nlFree (ls : List Str) (st : CbpSt)
    (hp : ∀ x ∈ st.paras, '\n' ∉ x) (hc : '\n' ∉ st.cur)
    (hls : ∀ l ∈ ls, '\n' ∉ l) :
    (∀ x ∈ (ls.foldl cbpLine st).paras, '\n' ∉ x) ∧
      '\n' ∉ (ls.foldl cbpLine st).cur := by
  induction ls generalizing st with
  | nil => exact ⟨hp, hc⟩
  | cons l ls' ih =>
      rw [List.foldl_cons]
      have h := cbpLine_nlFree st l hp hc (hls l (List.mem_cons_self l ls'))
      exact ih (cbpLine st l) h.1 h.2
        (fun x hx => hls x (List.mem_cons_of_mem l hx))

/-- A member of a list of newline-free strings is one of the pieces of the
blank-line-joined rendering split back into lines. -/
theorem mem_splitCh_joinNN (ps : List Str) (x : Str) (hx : x ∈ ps)
    (hfree : ∀ p ∈ ps, '\n' ∉ p) :
    x ∈ splitCh '\n' (joinWith (chars "\n\n") ps) := by
  induction ps with
  | nil => simp at hx
  | cons p ps' ih =>
      cases ps' with
      | nil =>
          rw [List.mem_singleton.mp hx]
          rw [show joinWith (chars "\n\n") [p] = p from rfl,
            splitCh_no_sep '\n' p (hfree p (List.mem_singleton.mpr rfl))]
          exact List.mem_singleton.mpr rfl
      | cons q qs =>
          have hp : '\n' ∉ p := hfree p (List.mem_cons_self p (q :: qs))
          have hjoin : joinWith (chars "\n\n") (p :: q :: qs) =
              p ++ (chars "\n\n" ++ joinWith (chars "\n\n") (q :: qs)) := by
            rw [joinWith, List.append_assoc]
          rw [hjoin]
          have hsplit :
              splitCh '\n' (p ++ (chars "\n\n" ++
                joinWith (chars "\n\n") (q :: qs))) =
              p :: [] :: splitCh '\n' (joinWith (chars "\n\n") (q :: qs)) := by
            rw [splitCh_append, splitCh_no_sep '\n' p hp]
            rw [show chars "\n\n" ++ joinWith (chars "\n\n") (q :: qs) =
                '\n' :: ('\n' :: joinWith (chars "\n\n") (q :: qs)) from rfl,
              splitCh_cons_sep, splitCh_cons_sep]
            simp
          rw [hsplit]
          rcases List.mem_cons.mp hx with rfl | hx
          · exact List.mem_cons_self x _
          · exact List.mem_cons_of_mem p (List.mem_cons_of_mem []
              (ih hx (fun r hr => hfree r (List.mem_cons_of_mem p hr))))

/-- Claim C3, counterexample: the bullets→blockquotes conversion prefixes
every line with `> `, code fences included, so the code line `code` of a
fenced region does not survive as a line of the output. -/
theorem c3_code_region_cex :
    chars "code" ∈
      codeRegionLines false (splitCh '\n' (chars "```\ncode\n```")) ∧
    chars "code" ∉
      splitCh '\n' (convertFormats (chars "```\ncode\n```")
        (chars "bullets") (chars "blockquotes")) := by
  decide

/-- Claim C3 (amended): conversion with equal styles, and with the two
style pairs that have no conversion branch ((paragraphs, blockquotes) and
(blockquotes, paragraphs)), returns the text unchanged, so fenced code
regions pass through verbatim; for (bullets, paragraphs) every non-blank
line lying inside a fenced code region appears byte-for-byte as a line of
the output (blank lines inside the region are dropped, and blank separator
lines are inserted, so the region is not preserved as a contiguous block);
the remaining pairs rewrite code-region lines. -/
theorem c3_code_region_amended :
    (∀ (t s₁ s₂ : Str),
      (s₁ = s₂ ∨ (s₁, s₂) ∈ [(chars "paragraphs", chars "blockquotes"),
        (chars "blockquotes", chars "paragraphs")]) →
      convertFormats t s₁ s₂ = t)
    ∧ (∀ (t x : Str), x ∈ codeRegionLines false (splitCh '\n' t) →
        pyStrip x ≠ [] →
        x ∈ splitCh '\n'
          (convertFormats t (chars "bullets") (chars "paragraphs"))) := by
  constructor
  · intro t s₁ s₂ h
    rcases h with rfl | h
    · unfold convertFormats
      rw [if_pos rfl]
    · simp only [List.mem_cons, List.not_mem_nil, or_false,
        Prod.mk.injEq] at h
      rcases h with ⟨rfl, rfl⟩ | ⟨rfl, rfl⟩ <;> rfl
  · intro t x hx hnb
    have hconv : convertFormats t (chars "bullets") (chars "paragraphs") =
        convert_bullet_to_paragraph t (chars "obsidian") := rfl
    rw [hconv]
    unfold convert_bullet_to_paragraph
    rw [if_neg (by decide)]
    have hfree : ∀ l ∈ splitCh '\n' t, '\n' ∉ l := splitCh_sep_not_mem '\n' t
    have hst := cbpFold_nlFree (splitCh '\n' t) ⟨[], [], false⟩
      (by simp) (by simp) hfree
    have hmem : x ∈ ((splitCh '\n' t).foldl cbpLine ⟨[], [], false⟩).paras :=
      cbpFold_keeps_code_lines (splitCh '\n' t) ⟨[], [], false⟩ x hx hnb
    set stf := (splitCh '\n' t).foldl cbpLine ⟨[], [], false⟩ with hstf
    refine mem_splitCh_joinNN _ x ?_ ?_
    · by_cases hcur : stf.cur ≠ []
      · rw [if_pos hcur]
        exact List.mem_append_left _ hmem
      · rw [if_neg hcur]
        exact hmem
    · intro p hp
      by_cases hcur : stf.cur ≠ []
      · rw [if_pos hcur] at hp
        rcases List.mem_append.mp hp with hp | hp
        · exact hst.1 p hp
        · rw [List.mem_singleton.mp hp]
          exact hst.2
      · rw [if_neg hcur] at hp
        exact hst.1 p hp

/-- Witness for the amended C3: a code line inside a fence, surrounded by
bullets, survives bullets→paragraphs conversion as an output line; and an
identity pair really is the identity. -/
theorem c3_code_region_amended_witness :
    chars "x" ∈ splitCh '\n'
      (convertFormats (chars "- a\n```\nx\n```\n- b")
        (chars "bullets") (chars "paragraphs")) ∧
    convertFormats (chars "- a") (chars "blockquotes") (chars "paragraphs") =
      chars "- a" := by
  constructor
  · exact c3_code_region_amended.2 (chars "- a\n```\nx\n```\n- b") (chars "x")
      (by decide) (by decide)
  · exact c3_code_region_amended.1 (chars "- a") (chars "blockquotes")
      (chars "paragraphs") (Or.inr (by decide))

/-! ### Run decomposition of the extractor (claims C4 and C10) -/

/-- The slugs of the level-2 heading lines of a body, in order. -/
def headingSlugs (ls : List Str) : List Str :=
  ls.filterMap fun l => if isHeadingL l then some (slugOf l) else none

/-- The raw section runs of the extractor scan: every (name, accumulated
lines) pair, including runs that accumulated nothing. -/
def sectionRuns : Str → List Str → List Str → List (Str × List Str)
  | cur, acc, [] => [(cur, acc)]
  | cur, acc, l :: ls =>
      if isHeadingL l then (cur, acc) :: sectionRuns (slugOf l) [] ls
      else sectionRuns cur (acc ++ [l]) ls

/-- The value bound to a key by a left-to-right sequence of dict writes:
the last write wins. -/
def lastValue (k : Str) : List (Str × β) → Option β
  | [] => none
  | e :: rest =>
      match lastValue k rest with
      | some v => some v
      | none => if e.1 = k then some e.2 else none

/-- `extract_sections`' loop is the fold of dict insertion over the
non-empty section runs, each joined and stripped. -/
theorem extractAux_eq_fold (ls : List Str) :
    ∀ (secs : List (Str × Str)) (cur : Str) (acc : List Str),
    extractAux secs cur acc ls =
      ((sectionRuns cur acc ls).filter fun r => r.2 ≠ []).foldl
        (fun d r => dictInsert d r.1 (pyStrip (joinNl r.2))) secs := by
  induction ls with
  | nil =>
      intro secs cur acc
      by_cases ha : acc ≠ [] <;>
        simp [extractAux, sectionRuns, ha]
  | cons l ls' ih =>
      intro secs cur acc
      by_cases hh : isHeadingL l
      · by_cases ha : acc ≠ []
        · simp only [extractAux, if_pos hh, if_pos ha, sectionRuns]
          rw [ih]
          simp [List.filter_cons, ha]
        · simp only [extractAux, if_pos hh, if_neg ha, sectionRuns]
          rw [ih]
          simp only [Ne, not_not] at ha
          simp [List.filter_cons, ha]
      · simp only [extractAux, if_neg hh, sectionRuns]
        rw [ih]

theorem alookup_foldl_dictInsert (entries : List (Str × β)) :
    ∀ (d : List (Str × β)) (k : Str),
    alookup k (entries.foldl (fun d r => dictInsert d r.1 r.2) d) =
      match lastValue k entries with
      | some v => some v
      | none => alookup k d := by
  induction entries with
  | nil => intro d k; simp [lastValue]
  | cons e es ih =>
      intro d k
      rw [List.foldl_cons, ih]
      cases hl : lastValue k es with
      | some v => simp [lastValue, hl]
      | none =>
          simp only [lastValue, hl]
          by_cases he : e.1 = k
          · rw [if_pos he, ← he, alookup_dictInsert_self]
          · rw [if_neg he, alookup_dictInsert_ne _ _ _ _ fun h => he h.symm]

theorem extractAux_keys_nodup (ls : List Str) :
    ∀ (secs : List (Str × Str)) (cur : Str) (acc : List Str),
    (keysOf secs).Nodup → (keysOf (extractAux secs cur acc ls)).Nodup := by
  induction ls with
  | nil =>
      intro secs cur acc h
      by_cases ha : acc ≠ []
      · simp only [extractAux, if_pos ha]
        exact nodup_keys_dictInsert _ _ _ h
      · simp only [extractAux, if_neg ha]
        exact h
  | cons l ls' ih =>
      intro secs cur acc h
      by_cases hh : isHeadingL l
      · by_cases ha : acc ≠ []
        · simp only [extractAux, if_pos hh, if_pos ha]
          exact ih _ _ _ (nodup_keys_dictInsert _ _ _ h)
        · simp only [extractAux, if_pos hh, if_neg ha]
          exact ih _ _ _ h
      · simp only [extractAux, if_neg hh]
        exact ih _ _ _ h

theorem count_eq_one_of_nodup_mem (l : List Str) (k : Str) (hnd : l.Nodup)
    (hk : k ∈ l) : l.count k = 1 := by
  induction l with
  | nil => simp at hk
  | cons a as ih =>
      rcases List.mem_cons.mp hk with rfl | hk
      · rw [List.count_cons_self]
        rw [List.count_eq_zero_of_not_mem (List.nodup_cons.mp hnd).1]
      · rw [List.count_cons_of_ne, ih (List.nodup_cons.mp hnd).2 hk]
        intro h
        exact absurd (h ▸ hk) (List.nodup_cons.mp hnd).1

/-- The extracted text of the last occurrence of slug `s` that accumulated
at least one line: scan the body into raw section runs, keep the runs with
at least one accumulated line, take the last one named `s` (joined and
stripped, as `extract_sections` stores it). -/
def lastKeptSection (s : Str) (body : Str) : Option Str :=
  lastValue s
    (((sectionRuns (chars "content") [] (splitCh '\n' body)).filter
        fun r => r.2 ≠ []).map
      fun r => (r.1, pyStrip (joinNl r.2)))

/-- Claim C10: when a body has two or more level-2 headings normalizing to
the same slug, extraction returns that slug exactly once, bound to the
joined-and-stripped text of the last same-named run that accumulated at
least one line before the next heading or end of input; the text of every
earlier same-named run is overwritten (silently discarded). -/
theorem c10_duplicate_slug (body s v : Str)
    (hdup : 2 ≤ (headingSlugs (splitCh '\n' body)).count s)
    (hlast : lastKeptSection s body = some v) :
    (keysOf (extract_sections body)).count s = 1 ∧
    alookup s (extract_sections body) = some v := by
  have hfold : extract_sections body =
      (((sectionRuns (chars "content") [] (splitCh '\n' body)).filter
          fun r => r.2 ≠ []).map
        (fun r => (r.1, pyStrip (joinNl r.2)))).foldl
        (fun d r => dictInsert d r.1 r.2) [] := by
    rw [show extract_sections body =
        extractAux [] (chars "content") [] (splitCh '\n' body) from rfl,
      extractAux_eq_fold, List.foldl_map]
  have hlook : alookup s (extract_sections body) = some v := by
    rw [hfold, alookup_foldl_dictInsert]
    rw [show lastValue s
        (((sectionRuns (chars "content") [] (splitCh '\n' body)).filter
            fun r => r.2 ≠ []).map
          fun r => (r.1, pyStrip (joinNl r.2))) = some v from hlast]
  refine ⟨?_, hlook⟩
  have hnd : (keysOf (extract_sections body)).Nodup :=
    extractAux_keys_nodup (splitCh '\n' body) [] (chars "content") []
      (by simp [keysOf])
  exact count_eq_one_of_nodup_mem _ s hnd
    ((alookup_isSome_iff_mem_keys s _).mp (by rw [hlook]; rfl))

/-- Witness for C10: the body `## A\nx\n## A\ny` has two `a` headings; the
extracted map binds `a` exactly once, to the last occurrence's text `y`,
discarding `x`. -/
theorem c10_duplicate_slug_witness :
    (keysOf (extract_sections (chars "## A\nx\n## A\ny"))).count (chars "a") =
      1 ∧
    alookup (chars "a") (extract_sections (chars "## A\nx\n## A\ny")) =
      some (chars "y") :=
  c10_duplicate_slug (chars "## A\nx\n## A\ny") (chars "a") (chars "y")
    (by decide) (by decide)

/-! ### Trim and line-sequence lemmas (claim C4) -/

theorem dropWhile_append_of_all (p : Char → Bool) (u v : Str)
    (h : ∀ c ∈ u, p c = true) :
    List.dropWhile p (u ++ v) = List.dropWhile p v := by
  induction u with
  | nil => rfl
  | cons c cs ih =>
      rw [List.cons_append,
        List.dropWhile_cons_of_pos (h c (List.mem_cons_self c cs))]
      exact ih fun d hd => h d (List.mem_cons_of_mem c hd)

theorem dropWhile_append_of_ne (p : Char → Bool) (u v : Str)
    (h : List.dropWhile p u ≠ []) :
    List.dropWhile p (u ++ v) = List.dropWhile p u ++ v := by
  induction u with
  | nil => exact absurd rfl h
  | cons c cs ih =>
      by_cases hc : p c = true
      · rw [List.dropWhile_cons_of_pos hc] at h
        rw [List.cons_append, List.dropWhile_cons_of_pos hc,
          List.dropWhile_cons_of_pos hc]
        exact ih h
      · rw [List.cons_append, List.dropWhile_cons_of_neg hc,
          List.dropWhile_cons_of_neg hc, List.cons_append]

theorem pyStripR_append_ws (x w : Str) (h : ∀ c ∈ w, pySpace c = true) :
    pyStripR (x ++ w) = pyStripR x := by
  unfold pyStripR
  rw [List.reverse_append,
    dropWhile_append_of_all pySpace w.reverse x.reverse
      fun c hc => h c (List.mem_reverse.mp hc)]

theorem pyStrip_cons_ws (c : Char) (l : Str) (h : pySpace c = true) :
    pyStrip (c :: l) = pyStrip l := by
  unfold pyStrip pyStripL
  rw [List.dropWhile_cons_of_pos h]

theorem pyStrip_eq_nil_of_all_ws (v : Str) (h : ∀ c ∈ v, pySpace c = true) :
    pyStrip v = [] := by
  unfold pyStrip pyStripL pyStripR
  rw [List.dropWhile_eq_nil_iff.mpr h]
  rfl

theorem all_ws_of_pyStrip_eq_nil (v : Str) (h : pyStrip v = []) :
    ∀ c ∈ v, pySpace c = true := by
  unfold pyStrip pyStripR at h
  have h2 : List.dropWhile pySpace (pyStripL v).reverse = [] := by
    cases hd : List.dropWhile pySpace (pyStripL v).reverse with
    | nil => rfl
    | cons a as => rw [hd] at h; simp at h
  have h3 : ∀ c ∈ (pyStripL v).reverse, pySpace c = true :=
    List.dropWhile_eq_nil_iff.mp h2
  have h4 : ∀ c ∈ pyStripL v, pySpace c = true :=
    fun c hc => h3 c (List.mem_reverse.mpr hc)
  intro c hc
  have hsplit : v.takeWhile pySpace ++ v.dropWhile pySpace = v :=
    List.takeWhile_append_dropWhile pySpace v
  rw [← hsplit] at hc
  rcases List.mem_append.mp hc with hc' | hc'
  · exact List.mem_takeWhile_imp hc'
  · exact h4 c hc'

theorem pyStrip_append_ws (a w : Str) (h : ∀ c ∈ w, pySpace c = true) :
    pyStrip (a ++ w) = pyStrip a := by
  by_cases ha : List.dropWhile pySpace a = []
  · have haw : ∀ c ∈ a, pySpace c = true := List.dropWhile_eq_nil_iff.mp ha
    rw [pyStrip_eq_nil_of_all_ws a haw]
    refine pyStrip_eq_nil_of_all_ws _ fun c hc => ?_
    rcases List.mem_append.mp hc with hc | hc
    · exact haw c hc
    · exact h c hc
  · unfold pyStrip pyStripL
    rw [dropWhile_append_of_ne pySpace a w ha, pyStripR_append_ws _ w h]

/-- Whole-string decomposition around `strip`: a whitespace prefix, the
stripped core, and a whitespace suffix. -/
theorem pyStrip_decomp (s : Str) :
    ∃ w₁ w₂, (∀ c ∈ w₁, pySpace c = true) ∧ (∀ c ∈ w₂, pySpace c = true) ∧
      s = w₁ ++ pyStrip s ++ w₂ := by
  refine ⟨s.takeWhile pySpace,
    ((pyStripL s).reverse.takeWhile pySpace).reverse,
    fun c hc => List.mem_takeWhile_imp hc,
    fun c hc => List.mem_takeWhile_imp (List.mem_reverse.mp hc), ?_⟩
  have hmid : pyStripL s =
      pyStrip s ++ ((pyStripL s).reverse.takeWhile pySpace).reverse := by
    have hrev : (pyStripL s).reverse =
        (pyStripL s).reverse.takeWhile pySpace ++
          (pyStripL s).reverse.dropWhile pySpace :=
      (List.takeWhile_append_dropWhile pySpace (pyStripL s).reverse).symm
    have := congrArg List.reverse hrev
    rw [List.reverse_reverse, List.reverse_append] at this
    exact this
  calc s = s.takeWhile pySpace ++ pyStripL s :=
        (List.takeWhile_append_dropWhile pySpace s).symm
    _ = s.takeWhile pySpace ++ (pyStrip s ++
          ((pyStripL s).reverse.takeWhile pySpace).reverse) := by rw [← hmid]
    _ = s.takeWhile pySpace ++ pyStrip s ++
          ((pyStripL s).reverse.takeWhile pySpace).reverse := by
        rw [List.append_assoc]

/-- A line (already trimmed) that the round-trip comparison keeps: neither
blank nor starting with a hash mark. -/
def keptLine (t : Str) : Bool := !t.isEmpty && !(t.headD ' ' == '#')

/-- Trim every line, keep the non-blank ones that do not start with `#`. -/
def trimFilterLines (ls : List Str) : List Str :=
  (ls.map pyStrip).filter keptLine

/-- The comparator of the round-trip statement: the sequence of trimmed,
non-blank lines of a string that do not begin with a hash mark. -/
def contentLines (s : Str) : List Str := trimFilterLines (splitCh '\n' s)

theorem trimFilterLines_append (u v : List Str) :
    trimFilterLines (u ++ v) = trimFilterLines u ++ trimFilterLines v := by
  unfold trimFilterLines
  rw [List.map_append, List.filter_append]

theorem mem_of_mem_splitCh (sep : Char) (l : Str) :
    ∀ p ∈ splitCh sep l, ∀ c ∈ p, c ∈ l := by
  induction l with
  | nil =>
      intro p hp c hc
      simp only [splitCh, List.mem_singleton] at hp
      rw [hp] at hc
      simp at hc
  | cons a rest ih =>
      intro p hp c hc
      by_cases h : a = sep
      · rw [h, splitCh_cons_sep] at hp
        rcases List.mem_cons.mp hp with hp | hp
        · rw [hp] at hc; simp at hc
        · exact List.mem_cons_of_mem a (ih p hp c hc)
      · rw [splitCh_cons_ne sep a rest h] at hp
        rcases hr : splitCh sep rest with _ | ⟨q, qs⟩
        · exact absurd hr (splitCh_ne_nil sep rest)
        · rw [hr] at hp
          rcases List.mem_cons.mp hp with hp | hp
          · rw [hp] at hc
            rcases List.mem_cons.mp hc with rfl | hc
            · exact List.mem_cons_self c rest
            · have hqmem : q ∈ splitCh sep rest := by
                rw [hr]
                exact List.mem_cons_self q qs
              exact List.mem_cons_of_mem a (ih q hqmem c (by simpa using hc))
          · have hpmem : p ∈ splitCh sep rest := by
              rw [hr]
              exact List.mem_cons_of_mem q (by simpa using hp)
            exact List.mem_cons_of_mem a (ih p hpmem c hc)

theorem trimFilterLines_eq_nil (ls : List Str)
    (h : ∀ p ∈ ls, ∀ c ∈ p, pySpace c = true) : trimFilterLines ls = [] := by
  induction ls with
  | nil => rfl
  | cons p ps ih =>
      unfold trimFilterLines at ih ⊢
      rw [List.map_cons, List.filter_cons,
        pyStrip_eq_nil_of_all_ws p (h p (List.mem_cons_self p ps))]
      rw [if_neg (by unfold keptLine; simp)]
      exact ih fun q hq => h q (List.mem_cons_of_mem p hq)

theorem contentLines_all_ws (w : Str) (h : ∀ c ∈ w, pySpace c = true) :
    contentLines w = [] := by
  unfold contentLines
  exact trimFilterLines_eq_nil _
    fun p hp c hc => h c (mem_of_mem_splitCh '\n' w p hp c hc)

theorem contentLines_ws_prefix (w s : Str) (h : ∀ c ∈ w, pySpace c = true) :
    contentLines (w ++ s) = contentLines s := by
  induction w with
  | nil => rfl
  | cons c cs ih =>
      have hc : pySpace c = true := h c (List.mem_cons_self c cs)
      have hcs : ∀ d ∈ cs, pySpace d = true :=
        fun d hd => h d (List.mem_cons_of_mem c hd)
      by_cases hnl : c = '\n'
      · subst hnl
        unfold contentLines
        rw [List.cons_append, splitCh_cons_sep]
        unfold trimFilterLines
        rw [List.map_cons, List.filter_cons]
        rw [show pyStrip ([] : Str) = [] from rfl,
          if_neg (by unfold keptLine; simp)]
        exact ih hcs
      · unfold contentLines at ih ⊢
        rw [List.cons_append, splitCh_cons_ne '\n' c (cs ++ s) hnl]
        rcases hr : splitCh '\n' (cs ++ s) with _ | ⟨q, qs⟩
        · exact absurd hr (splitCh_ne_nil '\n' (cs ++ s))
        · rw [hr] at ih
          unfold trimFilterLines at ih ⊢
          simp only [List.headD_cons, List.tail_cons, List.map_cons,
            List.filter_cons] at ih ⊢
          rw [pyStrip_cons_ws c q hc]
          exact ih hcs

theorem dropLast_append_getLastD (l : List Str) (h : l ≠ []) :
    ∀ d, l.dropLast ++ [l.getLastD d] = l := by
  induction l with
  | nil => exact absurd rfl h
  | cons x xs ih =>
      intro d
      cases xs with
      | nil => rfl
      | cons y ys =>
          rw [List.dropLast_cons₂, List.getLastD_cons, List.cons_append,
            ih (by simp) x]

theorem contentLines_ws_suffix (s w : Str) (h : ∀ c ∈ w, pySpace c = true) :
    contentLines (s ++ w) = contentLines s := by
  unfold contentLines
  rw [splitCh_append '\n' s w]
  have hQ : ∀ p ∈ splitCh '\n' w, ∀ c ∈ p, pySpace c = true :=
    fun p hp c hc => h c (mem_of_mem_splitCh '\n' w p hp c hc)
  rcases hq : splitCh '\n' w with _ | ⟨q0, qrest⟩
  · exact absurd hq (splitCh_ne_nil '\n' w)
  · rw [hq] at hQ
    have hq0 : ∀ c ∈ q0, pySpace c = true :=
      hQ q0 (List.mem_cons_self q0 qrest)
    simp only [List.headD_cons, List.tail_cons]
    rw [show ((splitCh '\n' s).getLastD [] ++ q0) ::
          qrest = [(splitCh '\n' s).getLastD [] ++ q0] ++ qrest from rfl]
    rw [← List.append_assoc, trimFilterLines_append, trimFilterLines_append]
    rw [trimFilterLines_eq_nil qrest
      (fun p hp c hc => hQ p (List.mem_cons_of_mem q0 hp) c hc)]
    have hmerge : trimFilterLines [(splitCh '\n' s).getLastD [] ++ q0] =
        trimFilterLines [(splitCh '\n' s).getLastD []] := by
      unfold trimFilterLines
      rw [List.map_cons, List.map_cons, pyStrip_append_ws _ q0 hq0]
    rw [hmerge, List.append_nil, ← trimFilterLines_append,
      dropLast_append_getLastD (splitCh '\n' s) (splitCh_ne_nil '\n' s) []]

theorem contentLines_pyStrip (s : Str) :
    contentLines (pyStrip s) = contentLines s := by
  obtain ⟨w₁, w₂, h₁, h₂, hdecomp⟩ := pyStrip_decomp s
  conv_rhs => rw [hdecomp]
  rw [List.append_assoc, contentLines_ws_prefix w₁ (pyStrip s ++ w₂) h₁,
    contentLines_ws_suffix (pyStrip s) w₂ h₂]

theorem splitCh_joinNl (acc : List Str) (h : ∀ l ∈ acc, '\n' ∉ l)
    (hne : acc ≠ []) : splitCh '\n' (joinNl acc) = acc := by
  induction acc with
  | nil => exact absurd rfl hne
  | cons x xs ih =>
      cases xs with
      | nil =>
          rw [show joinNl [x] = x from rfl,
            splitCh_no_sep '\n' x (h x (List.mem_singleton.mpr rfl))]
      | cons y ys =>
          have hx : '\n' ∉ x := h x (List.mem_cons_self x (y :: ys))
          have hj : joinNl (x :: y :: ys) = x ++ ('\n' :: joinNl (y :: ys)) := by
            rw [show joinNl (x :: y :: ys) =
                x ++ chars "\n" ++ joinNl (y :: ys) from rfl,
              List.append_assoc]
            rfl
          rw [hj, splitCh_append '\n' x ('\n' :: joinNl (y :: ys)),
            splitCh_no_sep '\n' x hx, splitCh_cons_sep]
          simp only [List.dropLast_single, List.headD_cons, List.tail_cons,
            List.nil_append]
          rw [ih (fun l hl => h l (List.mem_cons_of_mem x hl)) (by simp)]
          simp

theorem contentLines_joinNl_strip (acc : List Str) (h : ∀ l ∈ acc, '\n' ∉ l) :
    contentLines (pyStrip (joinNl acc)) = trimFilterLines acc := by
  rw [contentLines_pyStrip]
  cases acc with
  | nil => rfl
  | cons x xs =>
      unfold contentLines
      rw [splitCh_joinNl (x :: xs) h (by simp)]

theorem contentLines_joinNN (bs : List Str) :
    contentLines (joinWith (chars "\n\n") bs) =
      (bs.map contentLines).flatten := by
  induction bs with
  | nil => rfl
  | cons b bs' ih =>
      cases bs' with
      | nil =>
          rw [show joinWith (chars "\n\n") [b] = b from rfl]
          simp
      | cons c cs =>
          have hj : joinWith (chars "\n\n") (b :: c :: cs) =
              b ++ ('\n' :: '\n' :: joinWith (chars "\n\n") (c :: cs)) := by
            rw [show joinWith (chars "\n\n") (b :: c :: cs) =
                b ++ chars "\n\n" ++ joinWith (chars "\n\n") (c :: cs)
              from rfl, List.append_assoc]
            rfl
          rw [hj]
          unfold contentLines at ih ⊢
          rw [splitCh_append '\n' b ('\n' :: '\n' ::
            joinWith (chars "\n\n") (c :: cs)), splitCh_cons_sep,
            splitCh_cons_sep]
          simp only [List.headD_cons, List.tail_cons, List.append_nil]
          rw [show (splitCh '\n' b).dropLast ++
              (splitCh '\n' b).getLastD [] :: [] ::
                splitCh '\n' (joinWith (chars "\n\n") (c :: cs)) =
              ((splitCh '\n' b).dropLast ++
                [(splitCh '\n' b).getLastD []]) ++ ([] ::
                splitCh '\n' (joinWith (chars "\n\n") (c :: cs))) from by
            rw [List.append_assoc]
            rfl]
          rw [dropLast_append_getLastD (splitCh '\n' b)
              (splitCh_ne_nil '\n' b) [],
            trimFilterLines_append]
          rw [show trimFilterLines ([] ::
              splitCh '\n' (joinWith (chars "\n\n") (c :: cs))) =
              trimFilterLines
                (splitCh '\n' (joinWith (chars "\n\n") (c :: cs))) from by
            unfold trimFilterLines
            rw [List.map_cons, List.filter_cons,
              show pyStrip ([] : Str) = [] from rfl,
              if_neg (by unfold keptLine; simp)]]
          rw [ih]
          simp

theorem char_toNat_ofNat (m : Nat) (h : m < 55296) :
    (Char.ofNat m).toNat = m := by
  have hv : m.isValidChar := Or.inl h
  unfold Char.ofNat
  rw [dif_pos hv]
  rfl

theorem toLower_eq_newline (c : Char) (h : c.toLower = '\n') : c = '\n' := by
  unfold Char.toLower at h
  have h' : (if Char.toNat c ≥ 65 ∧ Char.toNat c ≤ 90 then
      Char.ofNat (Char.toNat c + 32) else c) = '\n' := h
  split at h'
  · rename_i hn
    exfalso
    have h2 := congrArg Char.toNat h'
    rw [char_toNat_ofNat (Char.toNat c + 32) (by omega)] at h2
    have h10 : ('\n').toNat = 10 := rfl
    omega
  · exact h'

theorem toUpper_eq_newline (c : Char) (h : c.toUpper = '\n') : c = '\n' := by
  unfold Char.toUpper at h
  have h' : (if Char.toNat c ≥ 97 ∧ Char.toNat c ≤ 122 then
      Char.ofNat (Char.toNat c - 32) else c) = '\n' := h
  split at h'
  · rename_i hn
    exfalso
    have h2 := congrArg Char.toNat h'
    rw [char_toNat_ofNat (Char.toNat c - 32) (by omega)] at h2
    have h10 : ('\n').toNat = 10 := rfl
    omega
  · exact h'

theorem slugOf_nl_free (l : Str) (hl : '\n' ∉ l) : '\n' ∉ slugOf l := by
  intro hmem
  unfold slugOf at hmem
  rw [List.mem_map] at hmem
  obtain ⟨d, hd, hdeq⟩ := hmem
  have hd2 : d = '\n' := by
    by_cases hsp : d = ' '
    · rw [if_pos hsp] at hdeq
      exact absurd hdeq (by decide)
    · rw [if_neg hsp] at hdeq
      exact hdeq
  rw [hd2] at hd
  rw [List.mem_map] at hd
  obtain ⟨e, he, heq⟩ := hd
  have he2 : e = '\n' := toLower_eq_newline e heq
  rw [he2] at he
  exact hl (List.mem_of_mem_drop (mem_dropWhile _ _ _ he))

theorem mem_joinWith (sep : Str) (ps : List Str) (c : Char)
    (h : c ∈ joinWith sep ps) : c ∈ sep ∨ ∃ p ∈ ps, c ∈ p := by
  induction ps with
  | nil => simp [joinWith] at h
  | cons x xs ih =>
      cases xs with
      | nil => exact Or.inr ⟨x, by simp, h⟩
      | cons y ys =>
          rw [show joinWith sep (x :: y :: ys) =
              x ++ sep ++ joinWith sep (y :: ys) from rfl] at h
          rcases List.mem_append.mp h with h | h
          · rcases List.mem_append.mp h with h | h
            · exact Or.inr ⟨x, List.mem_cons_self x (y :: ys), h⟩
            · exact Or.inl h
          · rcases ih h with h | ⟨p, hp, hc⟩
            · exact Or.inl h
            · exact Or.inr ⟨p, List.mem_cons_of_mem x hp, hc⟩

theorem pyCapitalize_nl_free (w : Str) (hw : '\n' ∉ w) :
    '\n' ∉ pyCapitalize w := by
  cases w with
  | nil => simp [pyCapitalize]
  | cons a as =>
      intro hmem
      unfold pyCapitalize at hmem
      rcases List.mem_cons.mp hmem with h | h
      · have ha : a = '\n' := toUpper_eq_newline a h.symm
        exact hw (ha ▸ List.mem_cons_self a as)
      · rw [List.mem_map] at h
        obtain ⟨d, hd, hdeq⟩ := h
        have hd2 : d = '\n' := toLower_eq_newline d hdeq
        exact hw (List.mem_cons_of_mem a (hd2 ▸ hd))

theorem headingNameOf_nl_free (g : Str) (hg : '\n' ∉ g) :
    '\n' ∉ headingNameOf g := by
  intro hmem
  unfold headingNameOf at hmem
  rcases mem_joinWith _ _ _ hmem with h | ⟨p, hp, hc⟩
  · exact absurd h (by decide)
  · rw [List.mem_map] at hp
    obtain ⟨w, hw, hweq⟩ := hp
    have hcw : '\n' ∈ pyCapitalize w := hweq ▸ hc
    have hnw : '\n' ∈ w := by
      by_contra hnw
      exact pyCapitalize_nl_free w hnw hcw
    exact hg (mem_of_mem_splitCh '_' g w hw '\n' hnw)

theorem pyStrip_cons_nonws (c : Char) (l : Str) (h : pySpace c = false) :
    pyStrip (c :: l) = c :: pyStripR l := by
  have hnot : ¬ pySpace c = true := by rw [h]; simp
  unfold pyStrip pyStripL
  rw [List.dropWhile_cons_of_neg hnot]
  unfold pyStripR
  rw [show (c :: l).reverse = l.reverse ++ [c] from by simp]
  by_cases hd : List.dropWhile pySpace l.reverse = []
  · rw [dropWhile_append_of_all pySpace l.reverse [c]
      (List.dropWhile_eq_nil_iff.mp hd), hd,
      List.dropWhile_cons_of_neg hnot]
    simp
  · rw [dropWhile_append_of_ne pySpace l.reverse [c] hd]
    simp

theorem keptLine_hash (xs : Str) : keptLine ('#' :: xs) = false := by
  unfold keptLine
  simp

theorem trimFilterLines_cons_heading (l : Str) (ls : List Str)
    (h : isHeadingL l = true) :
    trimFilterLines (l :: ls) = trimFilterLines ls := by
  unfold isHeadingL at h
  split at h
  · rename_i c rest
    unfold trimFilterLines
    rw [List.map_cons, List.filter_cons,
      pyStrip_cons_nonws '#' ('#' :: c :: rest) (by decide)]
    rw [if_neg (by rw [keptLine_hash]; simp)]
  · exact absurd h (by simp)

theorem contentLines_heading_block (g v : Str) (hg : '\n' ∉ g) :
    contentLines (chars "## " ++ headingNameOf g ++ chars "\n\n" ++ v) =
      contentLines v := by
  have hline_nl : '\n' ∉ chars "## " ++ headingNameOf g := by
    intro hmem
    rcases List.mem_append.mp hmem with h | h
    · exact absurd h (by decide)
    · exact headingNameOf_nl_free g hg h
  have hblock : chars "## " ++ headingNameOf g ++ chars "\n\n" ++ v =
      joinWith (chars "\n\n") [chars "## " ++ headingNameOf g, v] := rfl
  rw [hblock, contentLines_joinNN]
  have h1 : contentLines (chars "## " ++ headingNameOf g) = [] := by
    unfold contentLines
    rw [splitCh_no_sep '\n' _ hline_nl]
    unfold trimFilterLines
    rw [List.map_cons, List.map_nil, List.filter_cons]
    rw [show pyStrip (chars "## " ++ headingNameOf g) =
        '#' :: pyStripR ('#' :: ' ' :: headingNameOf g) from
      pyStrip_cons_nonws '#' ('#' :: ' ' :: headingNameOf g) (by decide)]
    rw [if_neg (by rw [keptLine_hash]; simp)]
    rfl
  simp [h1]

theorem dictInsert_not_mem (d : List (Str × Str)) (k : Str) (v : Str)
    (h : k ∉ keysOf d) : dictInsert d k v = d ++ [(k, v)] := by
  unfold dictInsert
  rw [alookup_eq_none_of_not_mem k d h]
  rfl

theorem foldl_dictInsert_map (runs : List (Str × List Str)) :
    ∀ d : List (Str × Str),
    (∀ r ∈ runs, r.1 ∉ keysOf d) → (runs.map Prod.fst).Nodup →
    runs.foldl (fun d r => dictInsert d r.1 (pyStrip (joinNl r.2))) d =
      d ++ runs.map fun r => (r.1, pyStrip (joinNl r.2)) := by
  induction runs with
  | nil => intro d _ _; simp
  | cons r rs ih =>
      intro d hfree hnd
      rw [List.map_cons] at hnd
      have hnd' := List.nodup_cons.mp hnd
      have hfree' : ∀ x ∈ rs,
          x.1 ∉ keysOf (d ++ [(r.1, pyStrip (joinNl r.2))]) := by
        intro x hx hmem
        simp only [keysOf, List.map_append, List.map_cons, List.map_nil,
          List.mem_append, List.mem_singleton] at hmem
        rcases hmem with hm | hm
        · exact hfree x (List.mem_cons_of_mem r hx) (by simpa [keysOf] using hm)
        · exact hnd'.1 (hm ▸ List.mem_map_of_mem Prod.fst hx)
      rw [List.foldl_cons,
        dictInsert_not_mem d r.1 _ (hfree r (List.mem_cons_self r rs)),
        ih _ hfree' hnd'.2]
      simp

theorem sectionRuns_map_fst (ls : List Str) :
    ∀ (cur : Str) (acc : List Str),
    (sectionRuns cur acc ls).map Prod.fst = cur :: headingSlugs ls := by
  induction ls with
  | nil => intro cur acc; simp [sectionRuns, headingSlugs]
  | cons l ls' ih =>
      intro cur acc
      by_cases hh : isHeadingL l
      · simp only [sectionRuns, if_pos hh, List.map_cons, ih]
        simp [headingSlugs, List.filterMap_cons, hh]
      · simp only [sectionRuns, if_neg hh, ih]
        simp [headingSlugs, List.filterMap_cons, hh]

theorem sectionRuns_head (ls : List Str) :
    ∀ (cur : Str) (acc : List Str),
    ∃ a rest, sectionRuns cur acc ls = (cur, a) :: rest ∧
      rest.map Prod.fst = headingSlugs ls := by
  induction ls with
  | nil =>
      intro cur acc
      exact ⟨acc, [], rfl, by simp [headingSlugs]⟩
  | cons l ls' ih =>
      intro cur acc
      by_cases hh : isHeadingL l
      · refine ⟨acc, sectionRuns (slugOf l) [] ls', ?_, ?_⟩
        · simp only [sectionRuns, if_pos hh]
        · rw [sectionRuns_map_fst]
          simp [headingSlugs, List.filterMap_cons, hh]
      · obtain ⟨a, rest, h1, h2⟩ := ih cur (acc ++ [l])
        refine ⟨a, rest, ?_, ?_⟩
        · simp only [sectionRuns, if_neg hh]
          exact h1
        · rw [h2]
          simp [headingSlugs, List.filterMap_cons, hh]

theorem sectionRuns_snd_mem (ls : List Str) :
    ∀ (cur : Str) (acc : List Str) (r : Str × List Str),
    r ∈ sectionRuns cur acc ls → ∀ x ∈ r.2, x ∈ acc ∨ x ∈ ls := by
  induction ls with
  | nil =>
      intro cur acc r hr x hx
      simp only [sectionRuns, List.mem_singleton] at hr
      rw [hr] at hx
      exact Or.inl hx
  | cons l ls' ih =>
      intro cur acc r hr x hx
      by_cases hh : isHeadingL l
      · simp only [sectionRuns, if_pos hh] at hr
        rcases List.mem_cons.mp hr with heq | hr
        · rw [heq] at hx
          exact Or.inl hx
        · rcases ih (slugOf l) [] r hr x hx with h | h
          · simp at h
          · exact Or.inr (List.mem_cons_of_mem l h)
      · simp only [sectionRuns, if_neg hh] at hr
        rcases ih cur (acc ++ [l]) r hr x hx with h | h
        · rcases List.mem_append.mp h with h | h
          · exact Or.inl h
          · simp only [List.mem_singleton] at h
            exact Or.inr (h ▸ List.mem_cons_self l ls')
        · exact Or.inr (List.mem_cons_of_mem l h)

theorem mem_headingSlugs (ls : List Str) (s : Str) (h : s ∈ headingSlugs ls) :
    ∃ l ∈ ls, isHeadingL l = true ∧ slugOf l = s := by
  unfold headingSlugs at h
  rw [List.mem_filterMap] at h
  obtain ⟨l, hl, hf⟩ := h
  by_cases hh : isHeadingL l
  · rw [if_pos hh] at hf
    exact ⟨l, hl, hh, Option.some.inj hf⟩
  · rw [if_neg hh] at hf
    exact absurd hf (by simp)

theorem trimFilterLines_sectionRuns (ls : List Str) :
    ∀ (cur : Str) (acc : List Str),
    trimFilterLines (acc ++ ls) =
      ((sectionRuns cur acc ls).map fun r => trimFilterLines r.2).flatten := by
  induction ls with
  | nil =>
      intro cur acc
      simp [sectionRuns]
  | cons l ls' ih =>
      intro cur acc
      by_cases hh : isHeadingL l
      · simp only [sectionRuns, if_pos hh, List.map_cons, List.flatten_cons]
        rw [trimFilterLines_append acc (l :: ls'),
          trimFilterLines_cons_heading l ls' hh]
        rw [show trimFilterLines ls' = trimFilterLines ([] ++ ls') from rfl,
          ih (slugOf l) []]
      · simp only [sectionRuns, if_neg hh]
        rw [show acc ++ l :: ls' = (acc ++ [l]) ++ ls' from by simp,
          ih cur (acc ++ [l])]

theorem join_map_filter (l : List (Str × List Str))
    (p : Str × List Str → Bool) (f : Str × List Str → List Str)
    (h : ∀ x ∈ l, p x = false → f x = []) :
    ((l.filter p).map f).flatten = (l.map f).flatten := by
  induction l with
  | nil => rfl
  | cons x xs ih =>
      rw [List.filter_cons]
      by_cases hp : p x = true
      · rw [if_pos hp]
        simp only [List.map_cons, List.flatten_cons]
        rw [ih fun y hy => h y (List.mem_cons_of_mem x hy)]
      · rw [if_neg hp]
        simp only [List.map_cons, List.flatten_cons]
        rw [h x (List.mem_cons_self x xs) (by simpa using hp),
          ih fun y hy => h y (List.mem_cons_of_mem x hy)]
        rfl

theorem join_map_filterMap (l : List (Str × Str)) (f : Str × Str → Option Str)
    (G : Str → List Str) (g : Str × Str → List Str)
    (h1 : ∀ x ∈ l, ∀ y, f x = some y → G y = g x)
    (h2 : ∀ x ∈ l, f x = none → g x = []) :
    ((l.filterMap f).map G).flatten = (l.map g).flatten := by
  induction l with
  | nil => rfl
  | cons x xs ih =>
      have ihx := ih (fun y hy => h1 y (List.mem_cons_of_mem x hy))
        (fun y hy => h2 y (List.mem_cons_of_mem x hy))
      cases hf : f x with
      | none =>
          simp only [List.filterMap_cons, hf, List.map_cons, List.flatten_cons]
          rw [ihx, h2 x (List.mem_cons_self x xs) hf]
          rfl
      | some y =>
          simp only [List.filterMap_cons, hf, List.map_cons, List.flatten_cons]
          rw [ihx, h1 x (List.mem_cons_self x xs) y hf]

/-- The raw section runs of an extraction scan over a whole body. -/
def bodyRuns (body : Str) : List (Str × List Str) :=
  sectionRuns (chars "content") [] (splitCh '\n' body)

/-- The section runs that accumulated at least one line: exactly the ones
`extract_sections` stores. -/
def keptRuns (body : Str) : List (Str × List Str) :=
  (bodyRuns body).filter fun r => r.2 ≠ []

/-- The per-section block builder of `reconstruct_content` (the list
comprehension filter plus the `## ` heading prefix). -/
def sectionBlock (e : Str × Str) : Option Str :=
  if e.1 ≠ chars "content" ∧ pyStrip e.2 ≠ [] then
    some (chars "## " ++ headingNameOf e.1 ++ chars "\n\n" ++ e.2)
  else none

theorem reconstruct_content_eq (secs : List (Str × Str)) :
    reconstruct_content secs = joinWith (chars "\n\n")
      ((match alookup (chars "content") secs with
        | some v => [v]
        | none => []) ++ secs.filterMap sectionBlock) := rfl

theorem sectionBlock_none (e : Str × Str)
    (hne : e.1 ≠ chars "content") (h : sectionBlock e = none) :
    contentLines e.2 = [] := by
  unfold sectionBlock at h
  by_cases hP : e.1 ≠ chars "content" ∧ pyStrip e.2 ≠ []
  · rw [if_pos hP] at h
    exact absurd h (by simp)
  · have h2 : pyStrip e.2 = [] := by
      by_contra hx
      exact hP ⟨hne, hx⟩
    exact contentLines_all_ws e.2 (all_ws_of_pyStrip_eq_nil e.2 h2)

theorem sectionBlock_some (e : Str × Str) (y : Str) (hnl : '\n' ∉ e.1)
    (h : sectionBlock e = some y) : contentLines y = contentLines e.2 := by
  unfold sectionBlock at h
  by_cases hP : e.1 ≠ chars "content" ∧ pyStrip e.2 ≠ []
  · rw [if_pos hP] at h
    rw [← Option.some.inj h]
    exact contentLines_heading_block e.1 e.2 hnl
  · rw [if_neg hP] at h
    exact absurd h (by simp)

theorem contentLines_reconstruct_no_content (entries : List (Str × Str))
    (hnc : ∀ e ∈ entries, e.1 ≠ chars "content")
    (hnl : ∀ e ∈ entries, '\n' ∉ e.1) :
    contentLines (reconstruct_content entries) =
      ((entries.map fun e => contentLines e.2)).flatten := by
  have ha : alookup (chars "content") entries = none := by
    apply alookup_eq_none_of_not_mem
    intro hmem
    simp only [keysOf, List.mem_map] at hmem
    obtain ⟨e, he, heq⟩ := hmem
    exact hnc e he heq
  rw [reconstruct_content_eq, ha]
  rw [show (match (none : Option Str) with
      | some v => [v]
      | none => ([] : List Str)) = [] from rfl]
  rw [List.nil_append, contentLines_joinNN]
  exact join_map_filterMap entries sectionBlock contentLines _
    (fun e he y hy => sectionBlock_some e y (hnl e he) hy)
    (fun e he hy => sectionBlock_none e (hnc e he) hy)

theorem contentLines_reconstruct_cons_content (v0 : Str)
    (rest : List (Str × Str))
    (hnc : ∀ e ∈ rest, e.1 ≠ chars "content")
    (hnl : ∀ e ∈ rest, '\n' ∉ e.1) :
    contentLines (reconstruct_content ((chars "content", v0) :: rest)) =
      contentLines v0 ++ ((rest.map fun e => contentLines e.2)).flatten := by
  have ha : alookup (chars "content") ((chars "content", v0) :: rest) =
      some v0 := by
    show (if chars "content" = chars "content" then some v0 else
      alookup (chars "content") rest) = some v0
    rw [if_pos rfl]
  have hf0 : sectionBlock (chars "content", v0) = none := by
    unfold sectionBlock
    rw [if_neg]
    intro h
    exact h.1 rfl
  rw [reconstruct_content_eq, ha]
  rw [show (match (some v0 : Option Str) with
      | some v => [v]
      | none => ([] : List Str)) = [v0] from rfl]
  simp only [List.filterMap_cons, hf0]
  rw [contentLines_joinNN, List.map_append, List.flatten_append]
  rw [show (([v0].map contentLines)).flatten = contentLines v0 from by simp]
  rw [join_map_filterMap rest sectionBlock contentLines
    (fun e => contentLines e.2)
    (fun e he y hy => sectionBlock_some e y (hnl e he) hy)
    (fun e he hy => sectionBlock_none e (hnc e he) hy)]

theorem extract_sections_eq_keptRuns (body : Str)
    (hnd : (headingSlugs (splitCh '\n' body)).Nodup)
    (hc : chars "content" ∉ headingSlugs (splitCh '\n' body)) :
    extract_sections body =
      (keptRuns body).map fun r => (r.1, pyStrip (joinNl r.2)) := by
  have hnames : ((bodyRuns body).map Prod.fst).Nodup := by
    show ((sectionRuns (chars "content") [] (splitCh '\n' body)).map
      Prod.fst).Nodup
    rw [sectionRuns_map_fst]
    exact List.nodup_cons.mpr ⟨hc, hnd⟩
  have hkeptnd : ((keptRuns body).map Prod.fst).Nodup :=
    List.Nodup.sublist (List.Sublist.map Prod.fst (List.filter_sublist _))
      hnames
  unfold extract_sections
  rw [extractAux_eq_fold]
  exact foldl_dictInsert_map _ _ (by intro r _; simp [keysOf]) hkeptnd

theorem contentLines_body_eq_kept (body : Str) :
    contentLines body =
      ((keptRuns body).map fun r => trimFilterLines r.2).flatten := by
  have h1 : contentLines body =
      ((bodyRuns body).map fun r => trimFilterLines r.2).flatten :=
    trimFilterLines_sectionRuns (splitCh '\n' body) (chars "content") []
  rw [h1]
  refine (join_map_filter (bodyRuns body) _ _ ?_).symm
  intro r _ hr
  have hr2 : r.2 = [] := by simpa using hr
  rw [hr2]
  rfl

theorem keptRuns_lines_nl_free (body : Str) :
    ∀ r ∈ keptRuns body, ∀ x ∈ r.2, '\n' ∉ x := by
  intro r hr x hx
  have hr' : r ∈ bodyRuns body := List.mem_of_mem_filter hr
  rcases sectionRuns_snd_mem (splitCh '\n' body) (chars "content") [] r hr'
      x hx with h | h
  · simp at h
  · exact splitCh_sep_not_mem '\n' body x h

/-- Claim C4, counterexample to the unconditional round trip: in the body
`"## A\nx\n## A\ny"` the two headings normalize to the same slug, the
second extraction overwrites the first, and the non-heading line `"x"` is
absent from the reconstruction — it is lost by the round trip even up to
casing/spacing normalization. -/
theorem c4_roundtrip_cex :
    chars "x" ∈ contentLines (chars "## A\nx\n## A\ny") ∧
    chars "x" ∉ contentLines
      (reconstruct_content (extract_sections (chars "## A\nx\n## A\ny"))) := by
  decide

/-- **C4** (amended): when the level-2 headings of the body normalize to
pairwise distinct slugs, none of which is the reserved name `content`,
reconstructing the extracted sections reproduces the body up to
normalization: the sequence of trimmed, non-blank, non-`#`-initial lines
(every non-heading content line, in order) is exactly preserved.  Without
the distinct-slug hypothesis the round trip loses lines. -/
theorem c4_roundtrip_amended (body : Str)
    (hnd : (headingSlugs (splitCh '\n' body)).Nodup)
    (hc : chars "content" ∉ headingSlugs (splitCh '\n' body)) :
    contentLines (reconstruct_content (extract_sections body)) =
      contentLines body := by
  obtain ⟨acc0, restRuns, hsplit, hrnames⟩ :=
    sectionRuns_head (splitCh '\n' body) (chars "content") []
  have hsplit' : bodyRuns body = (chars "content", acc0) :: restRuns := hsplit
  have hrest_mem : ∀ r ∈ restRuns, r.1 ∈ headingSlugs (splitCh '\n' body) :=
    fun r hr => hrnames ▸ List.mem_map_of_mem Prod.fst hr
  have hrestnc : ∀ r ∈ restRuns, r.1 ≠ chars "content" :=
    fun r hr h => hc (h ▸ hrest_mem r hr)
  have hrestnl : ∀ r ∈ restRuns, '\n' ∉ r.1 := by
    intro r hr
    obtain ⟨l, hl, hhl, hslug⟩ := mem_headingSlugs _ _ (hrest_mem r hr)
    exact hslug ▸ slugOf_nl_free l (splitCh_sep_not_mem '\n' body l hl)
  have hkf_sub : ∀ r ∈ restRuns.filter (fun r => r.2 ≠ []), r ∈ restRuns :=
    fun r hr => List.mem_of_mem_filter hr
  have henc : ∀ e ∈ (restRuns.filter fun r => r.2 ≠ []).map
      (fun r => (r.1, pyStrip (joinNl r.2))), e.1 ≠ chars "content" := by
    intro e he
    rw [List.mem_map] at he
    obtain ⟨r, hr, heq⟩ := he
    rw [← heq]
    exact hrestnc r (hkf_sub r hr)
  have henl : ∀ e ∈ (restRuns.filter fun r => r.2 ≠ []).map
      (fun r => (r.1, pyStrip (joinNl r.2))), '\n' ∉ e.1 := by
    intro e he
    rw [List.mem_map] at he
    obtain ⟨r, hr, heq⟩ := he
    rw [← heq]
    exact hrestnl r (hkf_sub r hr)
  by_cases ha : acc0 = []
  · have hkept : keptRuns body = restRuns.filter fun r => r.2 ≠ [] := by
      show (bodyRuns body).filter (fun r => r.2 ≠ []) =
        restRuns.filter fun r => r.2 ≠ []
      rw [hsplit', List.filter_cons, if_neg (by simp [ha])]
    rw [extract_sections_eq_keptRuns body hnd hc, hkept]
    rw [contentLines_reconstruct_no_content _ henc henl]
    rw [contentLines_body_eq_kept body, hkept]
    rw [List.map_map]
    congr 1
    apply List.map_congr_left
    intro r hr
    show contentLines (pyStrip (joinNl r.2)) = trimFilterLines r.2
    exact contentLines_joinNl_strip r.2
      (keptRuns_lines_nl_free body r (by rw [hkept]; exact hr))
  · have hkept : keptRuns body =
        (chars "content", acc0) :: restRuns.filter fun r => r.2 ≠ [] := by
      show (bodyRuns body).filter (fun r => r.2 ≠ []) =
        (chars "content", acc0) :: restRuns.filter fun r => r.2 ≠ []
      rw [hsplit', List.filter_cons, if_pos (by simp [ha])]
    have hmem0 : (chars "content", acc0) ∈ keptRuns body := by
      rw [hkept]
      exact List.mem_cons_self _ _
    rw [extract_sections_eq_keptRuns body hnd hc, hkept, List.map_cons]
    show contentLines (reconstruct_content
      ((chars "content", pyStrip (joinNl acc0)) ::
        (restRuns.filter fun r => r.2 ≠ []).map
          fun r => (r.1, pyStrip (joinNl r.2)))) = contentLines body
    rw [contentLines_reconstruct_cons_content _ _ henc henl]
    rw [contentLines_body_eq_kept body, hkept, List.map_cons,
      List.flatten_cons]
    congr 1
    · show contentLines (pyStrip (joinNl acc0)) = trimFilterLines acc0
      exact contentLines_joinNl_strip acc0
        (keptRuns_lines_nl_free body _ hmem0)
    · rw [List.map_map]
      congr 1
      apply List.map_congr_left
      intro r hr
      show contentLines (pyStrip (joinNl r.2)) = trimFilterLines r.2
      exact contentLines_joinNl_strip r.2
        (keptRuns_lines_nl_free body r
          (by rw [hkept]; exact List.mem_cons_of_mem _ hr))

/-- Witness for the amended C4 round trip at the concrete body
`"intro line\n\n## Alpha\nbody text"`. -/
theorem c4_roundtrip_amended_witness :
    (headingSlugs (splitCh '\n'
      (chars "intro line\n\n## Alpha\nbody text"))).Nodup ∧
    chars "content" ∉ headingSlugs (splitCh '\n'
      (chars "intro line\n\n## Alpha\nbody text")) ∧
    contentLines (reconstruct_content (extract_sections
        (chars "intro line\n\n## Alpha\nbody text"))) =
      contentLines (chars "intro line\n\n## Alpha\nbody text") :=
  ⟨by decide, by decide,
    c4_roundtrip_amended (chars "intro line\n\n## Alpha\nbody text")
      (by decide) (by decide)⟩
